import Mathlib

set_option maxRecDepth 100000

/-!
# Verification of the structpdf injection/extraction core

A shallow embedding, in Lean, of the `@structcv/structpdf` library: a system
that embeds a JSON payload inside a PDF document's embedded-file name tree
(optionally compressed, optionally integrity-protected) and later recovers it.

Modelling conventions, fixed throughout this file:

* JSON values are the inductive `JSONValue` (numbers restricted to integers:
  the library only ever manipulates payloads through `JSON.stringify` /
  `JSON.parse`, and none of the verified properties depend on float formatting).
* `JSON.stringify(v, null, 2)` and `JSON.stringify(v)` are implemented as the
  executable printers `jsonStringifyPretty` / `jsonStringifyCompact`, following
  the ECMA-404/V8 serialization rules (two-space indent, standard string
  escapes).  `JSON.parse` is the executable recursive-descent `jsonParse`.
* `TextEncoder`/`TextDecoder` are a real UTF-8 encoder and a total (lossy on
  invalid input) UTF-8 decoder over `List Nat` byte lists.
* The external `pako` codec is modelled as header framing: gzip output is the
  2-byte magic `1F 8B` prepended to the input, zlib is `78 9C`; inflation
  strips the magic.  Every verified property depends only on the codec's
  header framing and on decompression being a left inverse of compression,
  never on the DEFLATE bit-stream itself.
* The external document object model (`pdf-lib`) is modelled per the interface
  it is consumed through: an untyped lookup yields the resolved object or
  `undefined` without throwing, while a typed lookup (`lookup(i, PDFDict)`,
  `lookup('EF', PDFDict)`) throws when the target is missing or differently
  typed.  The embedded-file walk has no per-pair handler, so such a throw
  reaches the outer catch and aborts the walk with the entries collected so
  far.  A stream write stores the handed-over bytes and a stream read yields
  them back; `getKeywords` returns the space-joined keyword text (a plain JS
  string) and `setKeywords` joins a string array with single spaces.  Loading
  bytes either yields a document or fails, which is represented by the
  `PDFInput` sum.
* `crypto.createHash(a).update(s).digest('hex')` is modelled as the
  deterministic executable digest `hashHex a s`; the verified properties
  depend only on its determinism, never on the actual digest values.
* `new Date().toISOString()` is passed in explicitly as the `now : String`
  parameter of `inject`.
* File-system and path-validation glue around the pipelines is out of scope
  (it sits outside the core being verified); an unreadable or unparseable
  input document is the `PDFInput.invalid` case.
-/

/-! ## JSON values -/

/-- The plain-JSON value tree of `src/types` (`JSONValue`): strings, integers,
booleans, null, arrays and plain object maps. -/
inductive JSONValue where
  | null
  | bool (b : Bool)
  | num (n : Int)
  | str (s : String)
  | arr (xs : List JSONValue)
  | obj (kvs : List (String × JSONValue))

/-! ## Decimal number printing (model of JS number-to-string for integers) -/

/-- The character for a decimal digit (`0`–`9`). -/
def digitChar (n : Nat) : Char := Char.ofNat (48 + n)

/-- Fuel-driven most-significant-first decimal printer (accumulator style). -/
def natToCharsAux : Nat → Nat → List Char → List Char
  | 0, _, acc => acc
  | Nat.succ fuel, n, acc =>
    if n < 10 then digitChar n :: acc
    else natToCharsAux fuel (n / 10) (digitChar (n % 10) :: acc)

/-- Decimal digit characters of a natural number. -/
def natChars (n : Nat) : List Char := natToCharsAux (n + 1) n []

/-- Decimal rendering of an integer, with a leading minus sign when negative:
the model of JS `String(n)` for integral numbers. -/
def intChars (i : Int) : List Char :=
  if i < 0 then '-' :: natChars i.natAbs else natChars i.natAbs

/-- Decimal rendering of a natural number as a `String` (used in error texts). -/
def natString (n : Nat) : String := String.mk (natChars n)

/-! ## JSON string escaping (model of the V8 `JSON.stringify` quoting rules) -/

/-- The lowercase hex character for a value below 16. -/
def hexDigitChar (n : Nat) : Char :=
  if n < 10 then Char.ofNat (48 + n) else Char.ofNat (87 + n)

/-- Escape one character the way `JSON.stringify` quotes string contents:
quote and backslash get a backslash escape, the named control characters get
their short escapes, the remaining control characters get `\u00XX`, and
everything else is emitted literally. -/
def escapeChar (c : Char) : List Char :=
  if c = '"' then ['\\', '"']
  else if c = '\\' then ['\\', '\\']
  else if c.toNat = 8 then ['\\', 'b']
  else if c.toNat = 9 then ['\\', 't']
  else if c.toNat = 10 then ['\\', 'n']
  else if c.toNat = 12 then ['\\', 'f']
  else if c.toNat = 13 then ['\\', 'r']
  else if c.toNat < 32 then
    ['\\', 'u', '0', '0', hexDigitChar (c.toNat / 16), hexDigitChar (c.toNat % 16)]
  else [c]

/-- Escape a character list (string contents between the quotes). -/
def escChars : List Char → List Char
  | [] => []
  | c :: cs => escapeChar c ++ escChars cs

/-- A full JSON string literal: opening quote, escaped contents, closing quote. -/
def quoteChars (cs : List Char) : List Char := '"' :: (escChars cs ++ ['"'])

/-! ## JSON serialization (model of `JSON.stringify(v, null, 2)` and
`JSON.stringify(v)`) -/

/-- Two spaces per indentation level, as produced by the indent argument `2`. -/
def indentChars (lvl : Nat) : List Char := List.replicate (2 * lvl) ' '

/-- Interpose a separator between the given chunks. -/
def joinSepChars (sep : List Char) : List (List Char) → List Char
  | [] => []
  | [x] => x
  | x :: y :: xs => x ++ sep ++ joinSepChars sep (y :: xs)

mutual

/-- Pretty serialization of a JSON value at an indentation level: the model of
`JSON.stringify(value, null, 2)` (which the injector uses for the envelope). -/
def ppVal : JSONValue → Nat → List Char
  | .null, _ => "null".data
  | .bool true, _ => "true".data
  | .bool false, _ => "false".data
  | .num i, _ => intChars i
  | .str s, _ => quoteChars s.data
  | .arr [], _ => ['[', ']']
  | .arr (x :: xs), lvl =>
    '[' :: '\n' ::
      (joinSepChars [',', '\n'] (ppElems (x :: xs) (lvl + 1)) ++
        '\n' :: (indentChars lvl ++ [']']))
  | .obj [], _ => ['\x7b', '\x7d']
  | .obj (kv :: kvs), lvl =>
    '\x7b' :: '\n' ::
      (joinSepChars [',', '\n'] (ppMembers (kv :: kvs) (lvl + 1)) ++
        '\n' :: (indentChars lvl ++ ['\x7d']))

/-- The serialized lines of array elements, each prefixed by its indentation. -/
def ppElems : List JSONValue → Nat → List (List Char)
  | [], _ => []
  | x :: xs, lvl => (indentChars lvl ++ ppVal x lvl) :: ppElems xs lvl

/-- The serialized lines of object members (`"key": value`), each prefixed by
its indentation. -/
def ppMembers : List (String × JSONValue) → Nat → List (List Char)
  | [], _ => []
  | (k, v) :: kvs, lvl =>
    (indentChars lvl ++ (quoteChars k.data ++ ':' :: ' ' :: ppVal v lvl)) :: ppMembers kvs lvl

end

mutual

/-- Compact serialization: the model of `JSON.stringify(value)` (used for the
integrity digest input). -/
def ppValC : JSONValue → List Char
  | .null => "null".data
  | .bool true => "true".data
  | .bool false => "false".data
  | .num i => intChars i
  | .str s => quoteChars s.data
  | .arr xs => '[' :: (ppElemsC xs ++ [']'])
  | .obj kvs => '\x7b' :: (ppMembersC kvs ++ ['\x7d'])

/-- Comma-separated compact array elements. -/
def ppElemsC : List JSONValue → List Char
  | [] => []
  | [x] => ppValC x
  | x :: y :: xs => ppValC x ++ ',' :: ppElemsC (y :: xs)

/-- Comma-separated compact object members. -/
def ppMembersC : List (String × JSONValue) → List Char
  | [] => []
  | [(k, v)] => quoteChars k.data ++ ':' :: ppValC v
  | (k, v) :: m :: kvs => (quoteChars k.data ++ ':' :: ppValC v) ++ ',' :: ppMembersC (m :: kvs)

end

/-- `JSON.stringify(v, null, 2)` as a `String`. -/
def jsonStringifyPretty (v : JSONValue) : String := String.mk (ppVal v 0)

/-- `JSON.stringify(v)` as a `String`. -/
def jsonStringifyCompact (v : JSONValue) : String := String.mk (ppValC v)

/-! ## JSON parsing (model of `JSON.parse`)

A recursive-descent parser over character lists, driven by fuel (one unit per
grammar node).  It accepts the JSON grammar the library round-trips through
(integral numbers); on any other input it returns `none`, which the extractor
surfaces as its parse-failure result. -/

/-- JSON insignificant whitespace. -/
def isWsChar (c : Char) : Bool := c = ' ' || c = '\n' || c = '\t' || c = '\r'

/-- Drop leading JSON whitespace. -/
def skipWs : List Char → List Char
  | [] => []
  | c :: cs => if isWsChar c then skipWs cs else c :: cs

/-- Consume an expected literal character sequence. -/
def expectLit : List Char → List Char → Option (List Char)
  | [], cs => some cs
  | _ :: _, [] => none
  | l :: ls, c :: cs => if c = l then expectLit ls cs else none

/-- Value of one hex digit character. -/
def parseHexDigit (c : Char) : Option Nat :=
  if 48 ≤ c.toNat ∧ c.toNat ≤ 57 then some (c.toNat - 48)
  else if 97 ≤ c.toNat ∧ c.toNat ≤ 102 then some (c.toNat - 87)
  else if 65 ≤ c.toNat ∧ c.toNat ≤ 70 then some (c.toNat - 55)
  else none

/-- Parse the body of a JSON string literal (after the opening quote), up to
and including the closing quote; yields the unescaped contents and the rest.
The fuel (one unit per produced character) only makes the recursion
structural; callers pass the input length plus one, which always suffices. -/
def parseStringBody : Nat → List Char → Option (List Char × List Char)
  | 0, _ => none
  | _ + 1, [] => none
  | fuel + 1, c :: cs =>
    if c = '"' then some ([], cs)
    else if c = '\\' then
      match cs with
      | [] => none
      | e :: cs2 =>
        if e = '"' then (parseStringBody fuel cs2).map (fun p => ('"' :: p.1, p.2))
        else if e = '\\' then (parseStringBody fuel cs2).map (fun p => ('\\' :: p.1, p.2))
        else if e = '/' then (parseStringBody fuel cs2).map (fun p => ('/' :: p.1, p.2))
        else if e = 'b' then (parseStringBody fuel cs2).map (fun p => (Char.ofNat 8 :: p.1, p.2))
        else if e = 'f' then (parseStringBody fuel cs2).map (fun p => (Char.ofNat 12 :: p.1, p.2))
        else if e = 'n' then (parseStringBody fuel cs2).map (fun p => ('\n' :: p.1, p.2))
        else if e = 'r' then (parseStringBody fuel cs2).map (fun p => (Char.ofNat 13 :: p.1, p.2))
        else if e = 't' then (parseStringBody fuel cs2).map (fun p => ('\t' :: p.1, p.2))
        else if e = 'u' then
          match cs2 with
          | h1 :: h2 :: h3 :: h4 :: cs3 =>
            match parseHexDigit h1, parseHexDigit h2, parseHexDigit h3, parseHexDigit h4 with
            | some v1, some v2, some v3, some v4 =>
              (parseStringBody fuel cs3).map
                (fun p => (Char.ofNat (4096 * v1 + 256 * v2 + 16 * v3 + v4) :: p.1, p.2))
            | _, _, _, _ => none
          | _ => none
        else none
    else (parseStringBody fuel cs).map (fun p => (c :: p.1, p.2))

/-- Decimal digit character test. -/
def isDigitChar (c : Char) : Bool := decide (48 ≤ c.toNat) && decide (c.toNat ≤ 57)

/-- Split off the longest leading run of decimal digit characters. -/
def takeDigits : List Char → List Char × List Char
  | [] => ([], [])
  | c :: cs =>
    if isDigitChar c then
      let p := takeDigits cs
      (c :: p.1, p.2)
    else ([], c :: cs)

/-- Numeric value of a digit-character run (most significant first). -/
def digitsVal (ds : List Char) : Nat := ds.foldl (fun a c => a * 10 + (c.toNat - 48)) 0

mutual

/-- Parse one JSON value (after skipping leading whitespace), returning it and
the unconsumed rest.  Fuel decreases on every nested value/loop step. -/
def parseVal : Nat → List Char → Option (JSONValue × List Char)
  | 0, _ => none
  | Nat.succ fuel, cs0 =>
    match skipWs cs0 with
    | [] => none
    | c :: rest =>
      if c = 'n' then (expectLit ['u', 'l', 'l'] rest).map (fun r => (.null, r))
      else if c = 't' then (expectLit ['r', 'u', 'e'] rest).map (fun r => (.bool true, r))
      else if c = 'f' then (expectLit ['a', 'l', 's', 'e'] rest).map (fun r => (.bool false, r))
      else if c = '"' then
        (parseStringBody (rest.length + 1) rest).map (fun p => (.str (String.mk p.1), p.2))
      else if c = '[' then
        match skipWs rest with
        | ']' :: r2 => some (.arr [], r2)
        | cs1 => (parseArrItems fuel cs1).map (fun p => (.arr p.1, p.2))
      else if c = '\x7b' then
        match skipWs rest with
        | '\x7d' :: r2 => some (.obj [], r2)
        | cs1 => (parseObjItems fuel cs1).map (fun p => (.obj p.1, p.2))
      else if c = '-' then
        match takeDigits rest with
        | ([], _) => none
        | (ds, r) => some (.num (-(digitsVal ds : Int)), r)
      else if isDigitChar c then
        match takeDigits (c :: rest) with
        | (ds, r) => some (.num ((digitsVal ds : Int) : Int), r)
      else none

/-- Parse the comma-separated elements of a non-empty array, up to and
including the closing bracket. -/
def parseArrItems : Nat → List Char → Option (List JSONValue × List Char)
  | 0, _ => none
  | Nat.succ fuel, cs =>
    match parseVal fuel cs with
    | none => none
    | some (v, r1) =>
      match skipWs r1 with
      | ',' :: r2 => (parseArrItems fuel r2).map (fun p => (v :: p.1, p.2))
      | ']' :: r2 => some ([v], r2)
      | _ => none

/-- Parse the comma-separated members of a non-empty object, up to and
including the closing brace. -/
def parseObjItems : Nat → List Char → Option (List (String × JSONValue) × List Char)
  | 0, _ => none
  | Nat.succ fuel, cs =>
    match skipWs cs with
    | '"' :: r0 =>
      match parseStringBody (r0.length + 1) r0 with
      | none => none
      | some (kcs, r1) =>
        match skipWs r1 with
        | ':' :: r2 =>
          match parseVal fuel r2 with
          | none => none
          | some (v, r3) =>
            match skipWs r3 with
            | ',' :: r4 => (parseObjItems fuel r4).map (fun p => ((String.mk kcs, v) :: p.1, p.2))
            | '\x7d' :: r4 => some ([(String.mk kcs, v)], r4)
            | _ => none
        | _ => none
    | _ => none

end

/-- `JSON.parse`: parse a complete JSON text (with only trailing whitespace
allowed after the value); `none` models the thrown `SyntaxError`. -/
def jsonParse (s : String) : Option JSONValue :=
  match parseVal (s.data.length + 1) s.data with
  | some (v, rest) => if skipWs rest = [] then some v else none
  | none => none

/-- The rest of the input never starts with a digit in the positions where the
serializer places a value: it is empty or starts with a separator. -/
def restOk : List Char → Prop
  | [] => True
  | c :: _ => c = ',' ∨ c = '\n'

/-- A list that does not begin with a decimal digit character. -/
def notDigitStart : List Char → Prop
  | [] => True
  | c :: _ => isDigitChar c = false

/-! ### Decomposition of serialized arrays and objects -/

/-- What follows the serialization of an array element: either the run-out to
the closing bracket (empty here, the caller appends it) or a comma, a line
break and the remaining element lines. -/
def elemsSuffix : List JSONValue → Nat → List Char → List Char
  | [], _, r => r
  | y :: ys, lvl, r =>
    ',' :: '\n' :: (joinSepChars [',', '\n'] (ppElems (y :: ys) lvl) ++ r)

/-- What follows the serialization of an object member. -/
def membersSuffix : List (String × JSONValue) → Nat → List Char → List Char
  | [], _, r => r
  | m :: ms, lvl, r =>
    ',' :: '\n' :: (joinSepChars [',', '\n'] (ppMembers (m :: ms) lvl) ++ r)

/-! ### Fuel bounds for the parser -/

mutual

/-- Fuel sufficient for `parseVal` on the serialization of a value. -/
def pvBound : JSONValue → Nat
  | .null => 1
  | .bool _ => 1
  | .num _ => 1
  | .str _ => 1
  | .arr xs => 1 + plBound xs
  | .obj kvs => 1 + pmBound kvs

/-- Fuel sufficient for `parseArrItems` on serialized element lists. -/
def plBound : List JSONValue → Nat
  | [] => 1
  | x :: xs => 1 + pvBound x + plBound xs

/-- Fuel sufficient for `parseObjItems` on serialized member lists. -/
def pmBound : List (String × JSONValue) → Nat
  | [] => 1
  | (_, v) :: kvs => 1 + pvBound v + pmBound kvs

end

/-! ## UTF-8 bytes (model of `TextEncoder.encode` / `TextDecoder.decode`)

Bytes are natural numbers below 256.  The decoder is total (the default
`TextDecoder` is non-fatal and substitutes U+FFFD), driven by fuel; on
malformed input it consumes the offending lead byte and continues, which is a
mild simplification of the WHATWG resynchronisation rule and agrees with it on
all well-formed input. -/

/-- Encode one scalar value as its UTF-8 byte sequence. -/
def utf8EncodeChar (c : Char) : List Nat :=
  let n := c.toNat
  if n < 0x80 then [n]
  else if n < 0x800 then [0xC0 + n / 64, 0x80 + n % 64]
  else if n < 0x10000 then [0xE0 + n / 4096, 0x80 + (n / 64) % 64, 0x80 + n % 64]
  else [0xF0 + n / 262144, 0x80 + (n / 4096) % 64, 0x80 + (n / 64) % 64, 0x80 + n % 64]

/-- Encode a character list. -/
def utf8EncodeChars : List Char → List Nat
  | [] => []
  | c :: cs => utf8EncodeChar c ++ utf8EncodeChars cs

/-- `new TextEncoder().encode(s)`. -/
def utf8Encode (s : String) : List Nat := utf8EncodeChars s.data

/-- A UTF-8 continuation byte (`10xxxxxx`). -/
def isContByte (b : Nat) : Bool := decide (0x80 ≤ b) && decide (b < 0xC0)

/-- Fuel-driven UTF-8 decoding; one unit of fuel per produced character. -/
def utf8DecodeAux : Nat → List Nat → List Char
  | 0, _ => []
  | _ + 1, [] => []
  | fuel + 1, b0 :: rest =>
    if b0 < 0x80 then Char.ofNat b0 :: utf8DecodeAux fuel rest
    else if b0 < 0xC0 then '�' :: utf8DecodeAux fuel rest
    else if b0 < 0xE0 then
      match rest with
      | b1 :: rest1 =>
        if isContByte b1 then
          if 0x80 ≤ (b0 - 0xC0) * 64 + (b1 - 0x80) then
            Char.ofNat ((b0 - 0xC0) * 64 + (b1 - 0x80)) :: utf8DecodeAux fuel rest1
          else '�' :: utf8DecodeAux fuel rest
        else '�' :: utf8DecodeAux fuel rest
      | [] => ['�']
    else if b0 < 0xF0 then
      match rest with
      | b1 :: b2 :: rest2 =>
        if isContByte b1 && isContByte b2 then
          if 0x800 ≤ (b0 - 0xE0) * 4096 + (b1 - 0x80) * 64 + (b2 - 0x80) ∧
              ((b0 - 0xE0) * 4096 + (b1 - 0x80) * 64 + (b2 - 0x80) < 0xD800 ∨
                0xE000 ≤ (b0 - 0xE0) * 4096 + (b1 - 0x80) * 64 + (b2 - 0x80)) then
            Char.ofNat ((b0 - 0xE0) * 4096 + (b1 - 0x80) * 64 + (b2 - 0x80)) ::
              utf8DecodeAux fuel rest2
          else '�' :: utf8DecodeAux fuel rest
        else '�' :: utf8DecodeAux fuel rest
      | _ => ['�']
    else if b0 < 0xF8 then
      match rest with
      | b1 :: b2 :: b3 :: rest3 =>
        if isContByte b1 && isContByte b2 && isContByte b3 then
          if 0x10000 ≤ (b0 - 0xF0) * 262144 + (b1 - 0x80) * 4096 + (b2 - 0x80) * 64 +
              (b3 - 0x80) ∧
              (b0 - 0xF0) * 262144 + (b1 - 0x80) * 4096 + (b2 - 0x80) * 64 + (b3 - 0x80) <
                0x110000 then
            Char.ofNat
              ((b0 - 0xF0) * 262144 + (b1 - 0x80) * 4096 + (b2 - 0x80) * 64 + (b3 - 0x80)) ::
              utf8DecodeAux fuel rest3
          else '�' :: utf8DecodeAux fuel rest
        else '�' :: utf8DecodeAux fuel rest
      | _ => ['�']
    else '�' :: utf8DecodeAux fuel rest

/-- `new TextDecoder().decode(bytes)`. -/
def utf8Decode (bs : List Nat) : String := String.mk (utf8DecodeAux bs.length bs)

/-! ## Compression codec (model of `pako`)

The codec is modeled as invertible magic-header framing: `gzip` prepends the
two-byte gzip magic `1F 8B`, `deflate` prepends the zlib magic `78 9C`, and the
inverses strip the corresponding header (failing, as pako throws, when it is
absent).  This preserves exactly the properties the library relies on: the
inverses undo the codecs, and compressed output is recognised by its first two
bytes. -/

/-- `pako.gzip`. -/
def pakoGzip (bs : List Nat) : List Nat := 0x1F :: 0x8B :: bs

/-- `pako.ungzip`; `none` models the exception thrown on non-gzip input. -/
def pakoUngzip : List Nat → Option (List Nat)
  | 0x1F :: 0x8B :: rest => some rest
  | _ => none

/-- `pako.inflate`; `none` models the exception thrown on non-zlib input. -/
def pakoInflate : List Nat → Option (List Nat)
  | 0x78 :: 0x9C :: rest => some rest
  | _ => none

/-- `data.length >= 2 && data[0] === 0x1F && data[1] === 0x8B`. -/
def hasGzipHeader : List Nat → Bool
  | b0 :: b1 :: _ => decide (b0 = 0x1F) && decide (b1 = 0x8B)
  | _ => false

/-- `data.length >= 2 && data[0] === 0x78 && data[1] === 0x9c`. -/
def hasZlibHeader : List Nat → Bool
  | b0 :: b1 :: _ => decide (b0 = 0x78) && decide (b1 = 0x9C)
  | _ => false

/-- `compress` (src/src/injector/compression.ts): `pako.gzip(data)`. -/
def compressFn (bs : List Nat) : List Nat := pakoGzip bs

/-- `decompress` (src/unnamed/part_001 lines 10-31): validate the minimum
size, dispatch on the gzip/zlib magic, and wrap every failure message in
`Decompression failed: `. -/
def decompressFn (data : List Nat) : Except String (List Nat) :=
  if data.length < 2 then
    .error "Decompression failed: Data too small for compression detection"
  else if hasGzipHeader data then
    match pakoUngzip data with
    | some out => .ok out
    | none => .error "Decompression failed: incorrect header check"
  else if hasZlibHeader data then
    match pakoInflate data with
    | some out => .ok out
    | none => .error "Decompression failed: incorrect header check"
  else .error "Decompression failed: Unknown compression format"

/-- The extractor's layered-decompression loop (src/unnamed/part_001 lines
101-113): while fuel remains and a gzip/zlib header is present, decompress. -/
def decompressLoop : Nat → List Nat → Except String (List Nat)
  | 0, data => .ok data
  | fuel + 1, data =>
    if hasGzipHeader data || hasZlibHeader data then
      match decompressFn data with
      | .ok out => decompressLoop fuel out
      | .error e => .error e
    else .ok data

/-! ## Digest (model of `crypto.createHash(alg).update(s).digest('hex')`)

The cryptographic digest is abstracted by a concrete deterministic function of
the algorithm name and the input string; the library relies only on the digest
being a deterministic function of both. -/

/-- Deterministic stand-in for the node digest. -/
def hashHex (alg : String) (msg : String) : String :=
  alg ++ ":" ++
    natString (msg.data.foldl (fun a c => (a * 31 + c.toNat) % 1000000007) 7)

/-- `SUPPORTED_HASH_ALGORITHMS` (src/src/core/errors.ts lines 55-61). -/
def SUPPORTED_HASH_ALGORITHMS : List String := ["md5", "sha1", "sha256", "sha384", "sha512"]

/-! ## Validators (src/src/core/validation.ts) -/

/-- ASCII letter. -/
def isAlphaChar (c : Char) : Bool :=
  (decide ('a' ≤ c) && decide (c ≤ 'z')) || (decide ('A' ≤ c) && decide (c ≤ 'Z'))

/-- Scheme continuation: letters, digits, `+`, `-`, `.` up to a `:`. -/
def schemeRest : List Char → Bool
  | [] => false
  | ':' :: _ => true
  | c :: rest =>
    (isAlphaChar c || isDigitChar c || decide (c = '+') || decide (c = '-') ||
      decide (c = '.')) && schemeRest rest

/-- `URLValidator.validateURL`: whether `new URL(url)` succeeds, abstracted by
its scheme rule (a letter, then scheme characters, then `:`), which agrees with
the WHATWG parser on every URL the library and its callers use. -/
def validateURL (url : String) : Bool :=
  match url.data with
  | [] => false
  | c :: rest => isAlphaChar c && schemeRest rest

mutual

/-- `JSONValidator.validateJSON` on values already of JSON shape (class
instances, which the source additionally rejects, are not representable in
`JSONValue`). -/
def validateJSON : JSONValue → Bool
  | .null => true
  | .bool _ => true
  | .num _ => true
  | .str _ => true
  | .arr xs => validateJSONList xs
  | .obj kvs => validateJSONMems kvs

/-- `data.every(item => this.validateJSON(item))`. -/
def validateJSONList : List JSONValue → Bool
  | [] => true
  | x :: xs => validateJSON x && validateJSONList xs

/-- `Object.values(data).every(value => this.validateJSON(value))`. -/
def validateJSONMems : List (String × JSONValue) → Bool
  | [] => true
  | (_, v) :: kvs => validateJSON v && validateJSONMems kvs

end

/-! ## JS string helpers -/

/-- Character-by-character rendering of `[...someString]`: JS string spread
yields the list of its one-character strings. -/
def jsSpreadString (s : String) : List String := s.data.map (fun c => String.mk [c])

/-- `array.join(' ')`. -/
def joinSpace : List String → String
  | [] => ""
  | [x] => x
  | x :: y :: xs => x ++ " " ++ joinSpace (y :: xs)

/-- Splitting accumulator for `String.prototype.split(' ')`. -/
def splitSpaceAux : List Char → List Char → List String
  | [], acc => [String.mk acc.reverse]
  | ' ' :: rest, acc => String.mk acc.reverse :: splitSpaceAux rest []
  | c :: rest, acc => splitSpaceAux rest (c :: acc)

/-- `s.split(' ')`. -/
def jsSplitSpace (s : String) : List String := splitSpaceAux s.data []

/-- Boolean character-list leading-segment test, for `String.prototype.startsWith`. -/
def charsLeadWith : List Char → List Char → Bool
  | [], _ => true
  | _ :: _, [] => false
  | p :: ps, c :: cs => decide (p = c) && charsLeadWith ps cs

/-- `s.startsWith(p)`. -/
def jsStartsWith (s p : String) : Bool := charsLeadWith p.data s.data

/-- JS string falsiness of an optional string field: `undefined` or `''`. -/
def isFalsyStr : Option String → Bool
  | none => true
  | some s => decide (s = "")

/-! ## PDF document model (the pdf-lib DOM as the library reads and writes it)

A document records the Info-dictionary fields the handler touches (`creator`,
`keywords`, both raw strings as pdf-lib's `getCreator`/`getKeywords` return
them) and the catalog chain `Names → EmbeddedFiles → Names` used by the
embedded-file walk.  pdf-lib's typed lookups (`lookup(i+1, PDFDict)`,
`lookup('EF', PDFDict)`) throw when the target is missing or differently
typed — the source wraps the chain-level ones in try/catch but has no
per-pair handler inside the walk, so a malformed pair aborts the walk through
the outer catch (pdf-handler.ts lines 122-124) with the entries collected so
far.  Untyped lookups (`lookup(i)`, `lookup('F')`) yield the object or
`undefined` without throwing.  The stream created by `embedFile` carries its
payload bytes as its retrievable `contents`.  A slot in the names array is a
PDF string, a file-specification dictionary, or any other object (including
null and unresolvable indirect objects). -/

/-- The object behind a filespec's `EF → F` entry after `context.lookup`. -/
inductive FObj where
  | stream (contents : List Nat)
  | nonstream
deriving Repr, DecidableEq

/-- An `EF` dictionary: its `F` entry, if any. -/
structure EFDict where
  f : Option FObj
deriving Repr, DecidableEq

/-- A file-specification dictionary: its `EF` entry when it is a dictionary. -/
structure FileSpec where
  ef : Option EFDict
deriving Repr, DecidableEq

/-- One slot of the `EmbeddedFiles → Names` array. -/
inductive NameSlot where
  | pstr (s : String)
  | dict (fs : FileSpec)
  | other
deriving Repr, DecidableEq

/-- `slot.toString()`: a PDF string renders as `(…)`; dictionaries and other
objects render as text that never takes that form. -/
def slotToString : NameSlot → String
  | .pstr s => "(" ++ s ++ ")"
  | .dict _ => "<<dict>>"
  | .other => "obj"

/-- The `EmbeddedFiles` dictionary: its `Names` entry when it is an array. -/
structure EFTree where
  namesArr : Option (List NameSlot)
deriving Repr, DecidableEq

/-- The catalog's `Names` dictionary: its `EmbeddedFiles` entry when it is a
dictionary. -/
structure NamesDict where
  embeddedFiles : Option EFTree
deriving Repr, DecidableEq

/-- A loaded PDF document, as far as the library observes and mutates it. -/
structure PDFDoc where
  creator : Option String
  keywords : Option String
  names : Option NamesDict
deriving Repr, DecidableEq

/-- A document with nothing set. -/
def emptyDoc : PDFDoc := ⟨none, none, none⟩

/-- What the walk does with one filespec slot: the typed lookups
(`lookup(i+1, PDFDict)`, then `lookup('EF', PDFDict)`) throw — aborting the
whole walk — when the slot is not a dictionary or has no `EF` dictionary;
after that, the untyped `F` lookup merely skips the pair when `F` is absent
or does not resolve to an object carrying `contents`. -/
inductive PairOutcome where
  | abort
  | skip
  | entry (contents : List Nat)
deriving Repr, DecidableEq

/-- The outcome of one filespec slot, per the contract above. -/
def pairOutcome : NameSlot → PairOutcome
  | .dict fs =>
    match fs.ef with
    | some efd =>
      match efd.f with
      | some (.stream contents) => .entry contents
      | some .nonstream => .skip
      | none => .skip
    | none => .abort
  | _ => .abort

/-- The walk of `getEmbeddedFiles` over the names array (index stepping by
two): a resolving pair contributes its entry, an `F`-level failure is
skipped, and a throwing typed lookup — including the one on the missing
filespec slot after a trailing lone name — ends the walk at once, keeping
only what was collected before it (the outer catch at pdf-handler.ts lines
122-124 logs and returns the partial map). -/
def collectPairs : List NameSlot → List (String × List Nat)
  | n :: fs :: rest =>
    match pairOutcome fs with
    | .entry contents => (slotToString n, contents) :: collectPairs rest
    | .skip => collectPairs rest
    | .abort => []
  | _ => []

/-- A names array the walk traverses to the end without a throwing typed
lookup: even length and no pair classified `abort`. -/
def walkClean : List NameSlot → Bool
  | _ :: fs :: rest =>
    (match pairOutcome fs with
     | .abort => false
     | _ => true) && walkClean rest
  | [_] => false
  | [] => true

/-- `Map.prototype.get` after a sequence of `set`s: the last binding wins. -/
def mapGet : List (String × List Nat) → String → Option (List Nat)
  | [], _ => none
  | (k, v) :: rest, key =>
    match mapGet rest key with
    | some r => some r
    | none => if k = key then some v else none

/-- `PDFHandler.getEmbeddedFiles`: resolve the catalog chain, returning the
collected `(name.toString(), contents)` pairs; any unresolvable link yields
the empty map. -/
def getEmbeddedFiles (d : PDFDoc) : List (String × List Nat) :=
  match d.names with
  | none => []
  | some nd =>
    match nd.embeddedFiles with
    | none => []
    | some ef =>
      match ef.namesArr with
      | none => []
      | some slots => collectPairs slots

/-- `STRUCTPDF_CONSTANTS.EMBEDDED_FILE_NAME`. -/
def EMBEDDED_FILE_NAME : String := "structpdf.json"

/-- `PDFHandler.hasStructPDFData`: the map has the reserved key. -/
def hasStructPDFData (d : PDFDoc) : Bool :=
  (mapGet (getEmbeddedFiles d) ("(" ++ EMBEDDED_FILE_NAME ++ ")")).isSome

/-- The pair-filtering loop shared by `embedFile` and `removeFile`: keep each
pair whose name does not render as the target (a trailing lone slot that is
kept pushes an out-of-range `undefined`, which `context.obj` re-reads as a
non-string non-dictionary object). -/
def filterPairs (target : String) : List NameSlot → List NameSlot
  | n :: fs :: rest =>
    if slotToString n = target then filterPairs target rest
    else n :: fs :: filterPairs target rest
  | [n] => if slotToString n = target then [] else [n, .other]
  | [] => []

/-- Whether the walk meets a pair (or trailing lone slot) with the target
name. -/
def anyPairNamed (target : String) : List NameSlot → Bool
  | n :: _ :: rest => decide (slotToString n = target) || anyPairNamed target rest
  | [n] => decide (slotToString n = target)
  | [] => false

/-- `EmbeddedFileManager.embedFile`: create the stream and filespec, create
any missing link of the catalog chain, drop pairs already carrying the file
name, and append the new `(name, filespec)` pair. -/
def embedFile (d : PDFDoc) (fileName : String) (fileData : List Nat) : PDFDoc :=
  let nd := match d.names with
    | some nd => nd
    | none => NamesDict.mk none
  let ef := match nd.embeddedFiles with
    | some ef => ef
    | none => EFTree.mk (some [])
  let slots := match ef.namesArr with
    | some s => s
    | none => []
  let newSlots := filterPairs ("(" ++ fileName ++ ")") slots ++
    [NameSlot.pstr fileName,
     NameSlot.dict (FileSpec.mk (some (EFDict.mk (some (FObj.stream fileData)))))]
  { d with names := some { nd with embeddedFiles := some { ef with namesArr := some newSlots } } }

/-- `EmbeddedFileManager.removeFile`: rebuild the names array without the
pairs named `(fileName)`, reporting whether any was met; an unresolvable
chain leaves the document unchanged and reports `false`. -/
def removeFile (d : PDFDoc) (fileName : String) : PDFDoc × Bool :=
  match d.names with
  | none => (d, false)
  | some nd =>
    match nd.embeddedFiles with
    | none => (d, false)
    | some ef =>
      match ef.namesArr with
      | none => (d, false)
      | some slots =>
        if anyPairNamed ("(" ++ fileName ++ ")") slots then
          let ef2 : EFTree := { ef with namesArr := some (filterPairs ("(" ++ fileName ++ ")") slots) }
          let nd2 : NamesDict := { nd with embeddedFiles := some ef2 }
          ({ d with names := some nd2 }, true)
        else (d, false)

/-- `STRUCTPDF_CONSTANTS.GENERATOR`. -/
def GENERATOR : String := "@structcv/structpdf"

/-- `PDFHandler.addMetadata`: default the creator, then spread the existing
keywords STRING character-by-character (`[...existingKeywords]`), append
`key:value`, and store the space-join. -/
def addMetadata (d : PDFDoc) (key value : String) : PDFDoc :=
  let creator := if isFalsyStr d.creator then some GENERATOR else d.creator
  let newKeyword := key ++ ":" ++ value
  let updatedKeywords :=
    match d.keywords with
    | some ks => if ks = "" then [newKeyword] else jsSpreadString ks ++ [newKeyword]
    | none => [newKeyword]
  { d with creator := creator, keywords := some (joinSpace updatedKeywords) }

/-- `PDFHandler.addStructPDFMetadata`: the signal-token variant, with the same
creator defaulting and the same string spread of pre-existing keywords. -/
def addStructPDFMetadata (d : PDFDoc) (domain : String)
    (specID specName : Option String) : PDFDoc :=
  let creator := if isFalsyStr d.creator then some GENERATOR else d.creator
  let newKeywords := ["StructPDF:true", "StructPDF-Domain:" ++ domain] ++
    (match specID with
     | some i => ["StructPDF-SpecID:" ++ i]
     | none => []) ++
    (match specName with
     | some n => ["StructPDF-SpecName:" ++ n]
     | none => [])
  let updatedKeywords :=
    match d.keywords with
    | some ks => if ks = "" then newKeywords else jsSpreadString ks ++ newKeywords
    | none => newKeywords
  { d with creator := creator, keywords := some (joinSpace updatedKeywords) }

/-- `PDFHandler.hasStructPDFMetadata`: some space-separated keyword token
starts with `StructPDF:true`. -/
def hasStructPDFMetadata (d : PDFDoc) : Bool :=
  match d.keywords with
  | none => false
  | some ks => (jsSplitSpace ks).any (fun kw => jsStartsWith kw "StructPDF:true")

/-! ## Payload envelope (src/types: `StructPDFPayload`, `PayloadMetadata`) -/

/-- `metadata.integrity`. -/
structure IntegrityInfo where
  algorithm : String
  hash : String
deriving Repr, DecidableEq

/-- `PayloadMetadata`. -/
structure PayloadMetadata where
  createdAt : String
  generator : String
  compressed : Bool
  integrity : Option IntegrityInfo
deriving Repr, DecidableEq

/-- `StructPDFPayload`. -/
structure StructPDFPayload where
  domain : String
  version : String
  schema : String
  payload : JSONValue
  metadata : PayloadMetadata

/-- The metadata object as `JSON.stringify` sees it, in property insertion
order (`integrity` is assigned after construction, hence last). -/
def metadataJson (m : PayloadMetadata) : JSONValue :=
  .obj ([("createdAt", .str m.createdAt), ("generator", .str m.generator),
         ("compressed", .bool m.compressed)] ++
    (match m.integrity with
     | some i => [("integrity", .obj [("algorithm", .str i.algorithm), ("hash", .str i.hash)])]
     | none => []))

/-- The envelope object as `JSON.stringify` sees it, in property insertion
order. -/
def envelopeJson (p : StructPDFPayload) : JSONValue :=
  .obj [("domain", .str p.domain), ("version", .str p.version), ("schema", .str p.schema),
        ("payload", p.payload), ("metadata", metadataJson p.metadata)]

/-! ## JS value access on parse results -/

/-- JS object property read: with duplicate keys, the last assignment wins. -/
def objGet : List (String × JSONValue) → String → Option JSONValue
  | [], _ => none
  | (k, v) :: rest, key =>
    match objGet rest key with
    | some r => some r
    | none => if k = key then some v else none

/-- JS property access `v.key`: defined on objects, `undefined` elsewhere. -/
def jProp (v : JSONValue) (key : String) : Option JSONValue :=
  match v with
  | .obj kvs => objGet kvs key
  | _ => none

/-- JS truthiness of a JSON value. -/
def jTruthy : JSONValue → Bool
  | .null => false
  | .bool b => b
  | .num i => !(decide (i = 0))
  | .str s => !(decide (s = ""))
  | .arr _ => true
  | .obj _ => true

mutual

/-- `String(v)` for a JSON value (template-literal interpolation). -/
def jsStr : JSONValue → String
  | .null => "null"
  | .bool true => "true"
  | .bool false => "false"
  | .num i => String.mk (intChars i)
  | .str s => s
  | .arr xs => jsArrJoin xs
  | .obj _ => "[object Object]"

/-- `Array.prototype.join(',')` over rendered elements. -/
def jsArrJoin : List JSONValue → String
  | [] => ""
  | [x] => jsElemStr x
  | x :: y :: xs => jsElemStr x ++ "," ++ jsArrJoin (y :: xs)

/-- An element inside a join: `null` renders empty. -/
def jsElemStr : JSONValue → String
  | .null => ""
  | .bool true => "true"
  | .bool false => "false"
  | .num i => String.mk (intChars i)
  | .str s => s
  | .arr xs => jsArrJoin xs
  | .obj _ => "[object Object]"

end

/-- Template rendering of a possibly-undefined JS value. -/
def jsShow : Option JSONValue → String
  | none => "undefined"
  | some v => jsStr v

/-! ## Injector (src/unnamed/part_002) -/

/-- `InjectionOptions` as the injector reads them (booleans are JS-truthy
flags; `domain` may be absent). -/
structure InjectionOptions where
  overwrite : Bool
  compress : Bool
  addIntegrity : Bool
  schemaUrl : String
  domain : Option String
deriving Repr, DecidableEq

/-- `InjectionResult` (output path handling is outside the model). -/
structure InjectionResult where
  success : Bool
  metadata : PayloadMetadata
  warnings : List String
deriving Repr, DecidableEq

/-- `StructPDFInjector.extractVersion`. -/
def extractVersion (data : JSONValue) : String :=
  match data with
  | .obj kvs =>
    match objGet kvs "specVersion" with
    | some (.str s) => s
    | _ => "unknown"
  | _ => "unknown"

/-- `STRUCTPDF_CONSTANTS.COMPRESSION.THRESHOLD`. -/
def COMPRESSION_THRESHOLD : Nat := 1024

/-- `STRUCTPDF_CONSTANTS.COMPRESSION.MAX_LAYERS`. -/
def MAX_LAYERS : Nat := 5

/-- `STRUCTPDF_CONSTANTS.MAX_PAYLOAD_SIZE`. -/
def MAX_PAYLOAD_SIZE : Nat := 10485760

/-- `StructPDFInjector.preparePayload` (`new Date().toISOString()` is passed
in as `now`). -/
def preparePayload (data : JSONValue) (opts : InjectionOptions) (now : String) :
    StructPDFPayload :=
  let metadata : PayloadMetadata :=
    { createdAt := now, generator := GENERATOR, compressed := false,
      integrity :=
        if opts.addIntegrity then
          some ⟨"sha256", hashHex "sha256" (jsonStringifyCompact data)⟩
        else none }
  { domain := match opts.domain with
      | some dm => if dm = "" then "GENERIC" else dm
      | none => "GENERIC",
    version := extractVersion data,
    schema := opts.schemaUrl,
    payload := data,
    metadata := metadata }

/-- The injector's pre-serialization (`tempBytes`). -/
def injectTempBytes (data : JSONValue) (opts : InjectionOptions) (now : String) : List Nat :=
  utf8Encode (jsonStringifyPretty (envelopeJson (preparePayload data opts now)))

/-- `willCompress`. -/
def injectWillCompress (data : JSONValue) (opts : InjectionOptions) (now : String) : Bool :=
  opts.compress && decide ((injectTempBytes data opts now).length > COMPRESSION_THRESHOLD)

/-- The envelope after the conditional `payload.metadata.compressed = true`
mutation. -/
def injectFinalPayload (data : JSONValue) (opts : InjectionOptions) (now : String) :
    StructPDFPayload :=
  let p := preparePayload data opts now
  if injectWillCompress data opts now then
    { p with metadata := { p.metadata with compressed := true } }
  else p

/-- The bytes actually embedded: the re-serialized envelope, gzipped when
compression applies. -/
def injectBytes (data : JSONValue) (opts : InjectionOptions) (now : String) : List Nat :=
  let dataBytes := utf8Encode (jsonStringifyPretty (envelopeJson (injectFinalPayload data opts now)))
  if injectWillCompress data opts now then compressFn dataBytes else dataBytes

/-- The output document of a successful injection: optional removal under
`overwrite`, the embed, then the three `addMetadata` calls. -/
def injectDoc (d : PDFDoc) (data : JSONValue) (opts : InjectionOptions) (now : String) :
    PDFDoc :=
  let d2 := if opts.overwrite then (removeFile d EMBEDDED_FILE_NAME).1 else d
  let d3 := embedFile d2 EMBEDDED_FILE_NAME (injectBytes data opts now)
  let d4 := addMetadata d3 "HasStructPDF" "true"
  let d5 := addMetadata d4 "StructPDFVersion" (extractVersion data)
  let d6 := addMetadata d5 "StructPDFDomain" (injectFinalPayload data opts now).domain
  d6

/-- A document input as handed to `PDFDocument.load`: a loadable document or
one that makes the loader throw with the given message. -/
inductive PDFInput where
  | valid (d : PDFDoc)
  | invalid (msg : String)

/-- `StructPDFInjector.inject`: validation, the overwrite guard, payload
preparation, threshold-gated compression, the size cap, and the writes;
thrown errors surface as `Except.error` carrying the final `.message` (plain
`Error`s are wrapped by `InjectionError`, `StructPDFError`s are rethrown
as-is). -/
def inject (input : PDFInput) (data : JSONValue) (opts : InjectionOptions) (now : String) :
    Except String (PDFDoc × InjectionResult) :=
  if !validateJSON data then .error "Validation failed: Invalid JSON data provided"
  else if !validateURL opts.schemaUrl then .error "Validation failed: Invalid schema URL provided"
  else
    match input with
    | .invalid msg => .error ("Injection failed: " ++ msg)
    | .valid d =>
      if !opts.overwrite && hasStructPDFData d then
        .error "Injection failed: PDF already contains StructPDF data. Use overwrite option to replace."
      else if (injectBytes data opts now).length > MAX_PAYLOAD_SIZE then
        .error ("Injection failed: Payload too large: " ++
          natString (injectBytes data opts now).length ++ " bytes (max: " ++
          natString MAX_PAYLOAD_SIZE ++ ")")
      else
        .ok (injectDoc d data opts now,
          { success := true,
            metadata := (injectFinalPayload data opts now).metadata,
            warnings := if injectWillCompress data opts now then ["Data was compressed"] else [] })

/-! ## Extractor (src/unnamed/part_001) -/

/-- `ExtractionOptions`: `decompress` distinguishes absent/true/false (the
source tests both `!== false` and `=== false`); `verifyIntegrity` is a truthy
flag. -/
structure ExtractionOptions where
  decompress : Option Bool
  verifyIntegrity : Bool
deriving Repr, DecidableEq

/-- `ExtractionResult`; absent `data`/`errors`/`warnings` read as
`none`/`[]`. -/
structure ExtractionResult where
  success : Bool
  data : Option JSONValue
  errors : List String
  warnings : List String

/-- Stand-in for the engine-specific `SyntaxError.message` of a failed
`JSON.parse` (its exact text is not modeled, only that it is some fixed
message). -/
def jsonParseErrorMessage : String := "Unexpected token in JSON"

/-- Stand-in for the `TypeError.message` of `hash.update(undefined)` (thrown
when the envelope has no `payload` property, since `JSON.stringify(undefined)`
is `undefined`). -/
def hashUpdateErrorMessage : String :=
  "The \"data\" argument must be of type string or an instance of Buffer, TypedArray, or DataView. Received undefined"

/-- The extractor's parse block (lines 84-129): header detection, the layered
decompression loop guarded by `options.decompress`, decoding, and
`JSON.parse`; `.error` carries the caught message. -/
def extractParse (bytes : List Nat) (dec : Option Bool) : Except String JSONValue :=
  let isCompressed := hasGzipHeader bytes || hasZlibHeader bytes
  if isCompressed && !(dec == some false) then
    match decompressLoop MAX_LAYERS bytes with
    | .error e => .error e
    | .ok dataToProcess =>
      match jsonParse (utf8Decode dataToProcess) with
      | some v => .ok v
      | none => .error jsonParseErrorMessage
  else if isCompressed && (dec == some false) then
    .error "Data is compressed but decompress option is false"
  else
    match jsonParse (utf8Decode bytes) with
    | some v => .ok v
    | none => .error jsonParseErrorMessage

/-- `payload.metadata?.integrity` (optional chaining). -/
def integrityGateValue (env : JSONValue) : Option JSONValue :=
  match jProp env "metadata" with
  | some m => jProp m "integrity"
  | none => none

/-- The integrity-verification block (lines 132-164), entered with the gate
value `iv`: validate the algorithm against the supported set, recompute the
digest of `payload.payload`, and compare with the stored hash. -/
def verifyIntegrityStep (env iv : JSONValue) : ExtractionResult :=
  let algorithm := jProp iv "algorithm"
  let supported :=
    match algorithm with
    | some (.str a) => SUPPORTED_HASH_ALGORITHMS.contains a
    | _ => false
  if supported then
    match algorithm, jProp env "payload" with
    | some (.str a), some pv =>
      if (match jProp iv "hash" with
          | some (.str h) => decide (hashHex a (jsonStringifyCompact pv) = h)
          | _ => false) then
        ⟨true, some env, [], []⟩
      else ⟨false, some env, ["Integrity check failed: data may have been modified"], []⟩
    | _, _ =>
      ⟨false, some env, ["Integrity verification failed: " ++ hashUpdateErrorMessage], []⟩
  else
    ⟨false, some env,
      ["Unsupported hash algorithm: " ++ jsShow algorithm ++
        ". Supported: md5, sha1, sha256, sha384, sha512"], []⟩

/-- `StructPDFExtractor.extract`: every failure is returned as
`success: false` with a message list; an unloadable input surfaces through
the outer catch as `Extraction failed: …`. -/
def extract (input : PDFInput) (opts : ExtractionOptions) : ExtractionResult :=
  match input with
  | .invalid msg => ⟨false, none, ["Extraction failed: " ++ msg], []⟩
  | .valid d =>
    if !hasStructPDFData d then ⟨false, none, ["No StructPDF data found in PDF"], []⟩
    else
      match mapGet (getEmbeddedFiles d) ("(" ++ EMBEDDED_FILE_NAME ++ ")") with
      | none => ⟨false, none, ["StructPDF file not found in embedded files"], []⟩
      | some structpdfData =>
        match extractParse structpdfData opts.decompress with
        | .error e => ⟨false, none, ["Failed to parse StructPDF data: " ++ e], []⟩
        | .ok env =>
          if opts.verifyIntegrity &&
              (match integrityGateValue env with
               | some iv => jTruthy iv
               | none => false) then
            match integrityGateValue env with
            | some iv => verifyIntegrityStep env iv
            | none => ⟨true, some env, [], []⟩
          else ⟨true, some env, [], []⟩

/-- `StructPDFExtractor.hasStructPDFData`: the quick probe, `false` on any
load failure. -/
def hasStructPDFDataProbe : PDFInput → Bool
  | .valid d => hasStructPDFData d
  | .invalid _ => false

/-! ## Facts about the embedded-file walk and the writes -/

/-- The slots of a document's names array (empty when any chain link is
missing). -/
def docSlots (d : PDFDoc) : List NameSlot :=
  match d.names with
  | none => []
  | some nd =>
    match nd.embeddedFiles with
    | none => []
    | some ef =>
      match ef.namesArr with
      | none => []
      | some s => s

/-- How many pairs of the walk carry the target name. -/
def countPairsNamed (target : String) : List NameSlot → Nat
  | n :: _ :: rest => (if slotToString n = target then 1 else 0) + countPairsNamed target rest
  | [n] => if slotToString n = target then 1 else 0
  | [] => 0

/-- The envelope of the C6 witness, carrying an unsupported algorithm. -/
def c6envelope : StructPDFPayload :=
  ⟨"GENERIC", "unknown", "https://e/s", .null, ⟨"T", GENERATOR, false, some ⟨"md4", "beef"⟩⟩⟩

/-- The document of the C6 witness, storing that envelope uncompressed. -/
def c6doc : PDFDoc :=
  ⟨none, none, some ⟨some ⟨some [.pstr "structpdf.json",
    .dict ⟨some ⟨some (.stream (utf8Encode (jsonStringifyPretty
      (envelopeJson c6envelope))))⟩⟩]⟩⟩⟩

/-! ## Round-trip facts: the parser inverts the serializer -/

theorem stringMk_data (s : String) : String.mk s.data = s := by
  cases s
  rfl

theorem digitChar_toNat : ∀ n, n < 10 → (digitChar n).toNat = 48 + n := by decide

theorem isDigitChar_digitChar : ∀ n, n < 10 → isDigitChar (digitChar n) = true := by decide

theorem parseHexDigit_hexDigitChar : ∀ n, n < 16 → parseHexDigit (hexDigitChar n) = some n := by
  decide

theorem skipWs_cons_ws (c : Char) (h : isWsChar c = true) (cs : List Char) :
    skipWs (c :: cs) = skipWs cs := by
  simp [skipWs, h]

theorem skipWs_cons_not (c : Char) (h : isWsChar c = false) (cs : List Char) :
    skipWs (c :: cs) = c :: cs := by
  simp [skipWs, h]

theorem skipWs_replicate_space (n : Nat) (cs : List Char) :
    skipWs (List.replicate n ' ' ++ cs) = skipWs cs := by
  induction n with
  | zero => rfl
  | succ m ih => simpa [List.replicate_succ, skipWs] using ih

theorem skipWs_indent (k : Nat) (cs : List Char) :
    skipWs (indentChars k ++ cs) = skipWs cs :=
  skipWs_replicate_space (2 * k) cs

theorem restOk_notDigitStart {rest : List Char} (h : restOk rest) : notDigitStart rest := by
  cases rest with
  | nil => trivial
  | cons c cs =>
    rcases h with h | h <;> subst h <;> simp only [notDigitStart] <;> decide

/-! ### Decimal printing round trip -/

theorem digitsVal_append (ds : List Char) (d : Char) :
    digitsVal (ds ++ [d]) = digitsVal ds * 10 + (d.toNat - 48) := by
  simp [digitsVal, List.foldl_append]

theorem natToCharsAux_acc (fuel : Nat) : ∀ (n : Nat) (acc : List Char),
    natToCharsAux fuel n acc = natToCharsAux fuel n [] ++ acc := by
  induction fuel with
  | zero => intro n acc; rfl
  | succ f ih =>
    intro n acc
    by_cases h : n < 10
    · simp [natToCharsAux, h]
    · simp only [natToCharsAux, if_neg h]
      rw [ih (n / 10) (digitChar (n % 10) :: acc), ih (n / 10) [digitChar (n % 10)]]
      simp

theorem natToCharsAux_ne_nil (f : Nat) (n : Nat) : natToCharsAux (f + 1) n [] ≠ [] := by
  by_cases h : n < 10
  · simp [natToCharsAux, h]
  · simp only [natToCharsAux, if_neg h]
    rw [natToCharsAux_acc]
    simp

theorem natToCharsAux_ok (fuel : Nat) : ∀ n, n < 10 ^ fuel →
    digitsVal (natToCharsAux fuel n []) = n ∧
    ∀ c ∈ natToCharsAux fuel n [], isDigitChar c = true := by
  induction fuel with
  | zero =>
    intro n hn
    interval_cases n
    exact ⟨rfl, by intro c hc; cases hc⟩
  | succ f ih =>
    intro n hn
    by_cases h : n < 10
    · refine ⟨?_, ?_⟩
      · simp [natToCharsAux, h, digitsVal, digitChar_toNat n h]
      · intro c hc
        simp [natToCharsAux, h] at hc
        subst hc
        exact isDigitChar_digitChar n h
    · have hdiv : n / 10 < 10 ^ f := by
        rw [Nat.div_lt_iff_lt_mul (by norm_num : 0 < 10)]
        calc n < 10 ^ (f + 1) := hn
        _ = 10 ^ f * 10 := by ring
      obtain ⟨ihv, ihd⟩ := ih (n / 10) hdiv
      simp only [natToCharsAux, if_neg h]
      rw [natToCharsAux_acc]
      constructor
      · rw [digitsVal_append, ihv, digitChar_toNat (n % 10) (Nat.mod_lt n (by norm_num))]
        omega
      · intro c hc
        rcases List.mem_append.mp hc with hc | hc
        · exact ihd c hc
        · simp at hc
          subst hc
          exact isDigitChar_digitChar (n % 10) (Nat.mod_lt n (by norm_num))

theorem natChars_ne_nil (n : Nat) : natChars n ≠ [] := natToCharsAux_ne_nil n n

theorem natChars_val (n : Nat) : digitsVal (natChars n) = n :=
  (natToCharsAux_ok (n + 1) n (Nat.lt_pow_self (by norm_num) n |>.trans_le
    (Nat.pow_le_pow_right (by norm_num) (Nat.le_succ n)))).1

theorem natChars_digits (n : Nat) : ∀ c ∈ natChars n, isDigitChar c = true :=
  (natToCharsAux_ok (n + 1) n (Nat.lt_pow_self (by norm_num) n |>.trans_le
    (Nat.pow_le_pow_right (by norm_num) (Nat.le_succ n)))).2

theorem takeDigits_append (ds : List Char) (rest : List Char)
    (hds : ∀ c ∈ ds, isDigitChar c = true) (hrest : notDigitStart rest) :
    takeDigits (ds ++ rest) = (ds, rest) := by
  induction ds with
  | nil =>
    cases rest with
    | nil => rfl
    | cons c cs =>
      have : isDigitChar c = false := hrest
      simp [takeDigits, this]
  | cons d ds ih =>
    have hd : isDigitChar d = true := hds d (List.mem_cons_self d ds)
    have := ih (fun c hc => hds c (List.mem_cons_of_mem d hc))
    simp [takeDigits, hd, this]

/-! ### String-literal round trip -/

theorem parseStringBody_esc (s : List Char) : ∀ (fuel : Nat) (rest : List Char),
    s.length < fuel →
    parseStringBody fuel (escChars s ++ ('"' :: rest)) = some (s, rest) := by
  induction s with
  | nil =>
    intro fuel rest hf
    match fuel, hf with
    | f + 1, _ => simp [escChars, parseStringBody]
  | cons c cs ih =>
    intro fuel rest hf
    cases fuel with
    | zero => exact absurd hf (by omega)
    | succ f =>
    have ihf := ih f rest (by simp only [List.length_cons] at hf; omega)
    show parseStringBody (f + 1) ((escapeChar c ++ escChars cs) ++ ('"' :: rest))
        = some (c :: cs, rest)
    rw [List.append_assoc]
    by_cases h1 : c = '"'
    · subst h1
      simp [escapeChar, parseStringBody, ihf]
    · by_cases h2 : c = '\\'
      · subst h2
        simp [escapeChar, parseStringBody, ihf]
      · by_cases h3 : c.toNat = 8
        · have hc : Char.ofNat 8 = c := by rw [← h3, Char.ofNat_toNat]
          simp [escapeChar, h1, h2, h3, parseStringBody, ihf]
          exact hc
        · by_cases h4 : c.toNat = 9
          · have hc : '\t' = c := by
              have : Char.ofNat 9 = c := by rw [← h4, Char.ofNat_toNat]
              simpa using this
            simp [escapeChar, h1, h2, h3, h4, parseStringBody, ihf]
            exact hc
          · by_cases h5 : c.toNat = 10
            · have hc : '\n' = c := by
                have : Char.ofNat 10 = c := by rw [← h5, Char.ofNat_toNat]
                simpa using this
              simp [escapeChar, h1, h2, h3, h4, h5, parseStringBody, ihf]
              exact hc
            · by_cases h6 : c.toNat = 12
              · have hc : Char.ofNat 12 = c := by rw [← h6, Char.ofNat_toNat]
                simp [escapeChar, h1, h2, h3, h4, h5, h6, parseStringBody, ihf]
                exact hc
              · by_cases h7 : c.toNat = 13
                · have hc : Char.ofNat 13 = c := by rw [← h7, Char.ofNat_toNat]
                  simp [escapeChar, h1, h2, h3, h4, h5, h6, h7, parseStringBody, ihf]
                  exact hc
                · by_cases h8 : c.toNat < 32
                  · have hdiv : c.toNat / 16 < 16 := by omega
                    have hmod : c.toNat % 16 < 16 := by omega
                    have e1 := parseHexDigit_hexDigitChar (c.toNat / 16) hdiv
                    have e2 := parseHexDigit_hexDigitChar (c.toNat % 16) hmod
                    have hval : 16 * (c.toNat / 16) + c.toNat % 16 = c.toNat := by omega
                    have hc : Char.ofNat (16 * (c.toNat / 16) + c.toNat % 16) = c := by
                      rw [hval, Char.ofNat_toNat]
                    have e0 : parseHexDigit '0' = some 0 := by decide
                    simp [escapeChar, h1, h2, h3, h4, h5, h6, h7, h8, parseStringBody,
                      e0, e1, e2, ihf]
                    exact hc
                  · simp [escapeChar, h1, h2, h3, h4, h5, h6, h7, h8, parseStringBody, ihf]

/-! ### Length and head-character facts about the serializer -/

theorem escapeChar_length_pos (c : Char) : 1 ≤ (escapeChar c).length := by
  unfold escapeChar
  repeat' split
  all_goals simp

theorem escChars_length (s : List Char) : s.length ≤ (escChars s).length := by
  induction s with
  | nil => simp [escChars]
  | cons c cs ih =>
    have := escapeChar_length_pos c
    simp only [escChars, List.length_append, List.length_cons]
    omega

theorem digit_head_facts {c : Char} (h : isDigitChar c = true) :
    isWsChar c = false ∧ c ≠ 'n' ∧ c ≠ 't' ∧ c ≠ 'f' ∧ c ≠ '"' ∧ c ≠ '[' ∧
      c ≠ '\x7b' ∧ c ≠ '-' ∧ c ≠ ']' ∧ c ≠ '\x7d' ∧ c.toNat ≠ 31 ∧ c.toNat ≠ 120 ∧
      c.toNat < 128 := by
  simp only [isDigitChar, Bool.and_eq_true, decide_eq_true_eq] at h
  refine ⟨?_, ?_, ?_, ?_, ?_, ?_, ?_, ?_, ?_, ?_, by omega, by omega, by omega⟩
  · simp only [isWsChar, Bool.or_eq_false_iff, decide_eq_false_iff_not]
    refine ⟨⟨⟨?_, ?_⟩, ?_⟩, ?_⟩ <;> (rintro rfl; revert h; decide)
  all_goals (rintro rfl; revert h; decide)

/-- Every serialized JSON value starts with a distinctive non-whitespace ASCII
character: a letter of a literal, a quote, a bracket, a brace, a minus sign or
a digit.  In particular it is never a closing bracket and never one of the
compression magic bytes `0x1F` / `0x78`. -/
theorem ppVal_head (v : JSONValue) (lvl : Nat) :
    ∃ c cc, ppVal v lvl = c :: cc ∧ isWsChar c = false ∧ c ≠ ']' ∧ c ≠ '\x7d' ∧
      c.toNat ≠ 31 ∧ c.toNat ≠ 120 ∧ c.toNat < 128 := by
  cases v with
  | null => exact ⟨'n', _, rfl, by decide, by decide, by decide, by decide, by decide, by decide⟩
  | bool b =>
    cases b with
    | true => exact ⟨'t', _, rfl, by decide, by decide, by decide, by decide, by decide, by decide⟩
    | false =>
      exact ⟨'f', _, rfl, by decide, by decide, by decide, by decide, by decide, by decide⟩
  | num i =>
    show ∃ c cc, intChars i = c :: cc ∧ _
    unfold intChars
    by_cases hneg : i < 0
    · rw [if_pos hneg]
      exact ⟨'-', _, rfl, by decide, by decide, by decide, by decide, by decide, by decide⟩
    · rw [if_neg hneg]
      obtain ⟨d, ds, hnat⟩ := List.exists_cons_of_ne_nil (natChars_ne_nil i.natAbs)
      have hd : isDigitChar d = true := by
        apply natChars_digits i.natAbs
        rw [hnat]
        exact List.mem_cons_self d ds
      obtain ⟨hws, _, _, _, _, _, _, _, h9, h10, h11, h12, h13⟩ := digit_head_facts hd
      exact ⟨d, ds, hnat, hws, h9, h10, h11, h12, h13⟩
  | str s =>
    exact ⟨'"', _, rfl, by decide, by decide, by decide, by decide, by decide, by decide⟩
  | arr xs =>
    cases xs with
    | nil => exact ⟨'[', _, rfl, by decide, by decide, by decide, by decide, by decide, by decide⟩
    | cons x xs =>
      exact ⟨'[', _, rfl, by decide, by decide, by decide, by decide, by decide, by decide⟩
  | obj kvs =>
    cases kvs with
    | nil =>
      exact ⟨'\x7b', _, rfl, by decide, by decide, by decide, by decide, by decide, by decide⟩
    | cons kv kvs =>
      exact ⟨'\x7b', _, rfl, by decide, by decide, by decide, by decide, by decide, by decide⟩

/-! ### Whitespace insensitivity of the parser entry points -/

theorem parseVal_skip {a b : List Char} (h : skipWs a = skipWs b) (fuel : Nat) :
    parseVal fuel a = parseVal fuel b := by
  cases fuel with
  | zero => rfl
  | succ f => simp only [parseVal, h]

theorem parseArrItems_skip {a b : List Char} (h : skipWs a = skipWs b) (fuel : Nat) :
    parseArrItems fuel a = parseArrItems fuel b := by
  cases fuel with
  | zero => rfl
  | succ f => simp only [parseArrItems, parseVal_skip h]

theorem parseObjItems_skip {a b : List Char} (h : skipWs a = skipWs b) (fuel : Nat) :
    parseObjItems fuel a = parseObjItems fuel b := by
  cases fuel with
  | zero => rfl
  | succ f => simp only [parseObjItems, h]

theorem join_elems_eq (x : JSONValue) (xs : List JSONValue) (lvl : Nat) (r : List Char) :
    joinSepChars [',', '\n'] (ppElems (x :: xs) lvl) ++ r =
      indentChars lvl ++ (ppVal x lvl ++ elemsSuffix xs lvl r) := by
  cases xs with
  | nil => simp [ppElems, joinSepChars, elemsSuffix]
  | cons y ys => simp [ppElems, joinSepChars, elemsSuffix, List.append_assoc]

theorem join_members_eq (k : String) (v : JSONValue) (kvs : List (String × JSONValue))
    (lvl : Nat) (r : List Char) :
    joinSepChars [',', '\n'] (ppMembers ((k, v) :: kvs) lvl) ++ r =
      indentChars lvl ++
        (quoteChars k.data ++ ':' :: ' ' :: (ppVal v lvl ++ membersSuffix kvs lvl r)) := by
  cases kvs with
  | nil => simp [ppMembers, joinSepChars, membersSuffix, List.append_assoc]
  | cons m ms => simp [ppMembers, joinSepChars, membersSuffix, List.append_assoc]

theorem restOk_elemsSuffix (xs : List JSONValue) (lvl : Nat) (r : List Char)
    (hr : restOk ('\n' :: r)) : restOk (elemsSuffix xs lvl ('\n' :: r)) := by
  cases xs with
  | nil => exact hr
  | cons y ys => simp [elemsSuffix, restOk]

theorem restOk_membersSuffix (kvs : List (String × JSONValue)) (lvl : Nat) (r : List Char)
    (hr : restOk ('\n' :: r)) : restOk (membersSuffix kvs lvl ('\n' :: r)) := by
  cases kvs with
  | nil => exact hr
  | cons m ms => simp [membersSuffix, restOk]

theorem pvBound_pos (v : JSONValue) : 1 ≤ pvBound v := by
  cases v <;> simp [pvBound]

theorem plBound_pos (xs : List JSONValue) : 1 ≤ plBound xs := by
  cases xs with
  | nil => simp [plBound]
  | cons x t => simp only [plBound]; omega

theorem pmBound_pos (kvs : List (String × JSONValue)) : 1 ≤ pmBound kvs := by
  cases kvs with
  | nil => simp [pmBound]
  | cons m ms => obtain ⟨k, v⟩ := m; simp only [pmBound]; omega

mutual

/-- The parser inverts the pretty serializer on any value, at any indentation
level, for any fuel at least the value's bound, whenever the following input
is empty or starts with a separator. -/
theorem parseVal_pp : ∀ (v : JSONValue) (lvl fuel : Nat) (rest : List Char),
    pvBound v ≤ fuel → restOk rest →
    parseVal fuel (ppVal v lvl ++ rest) = some (v, rest)
  | .null, lvl, fuel, rest, hb, hr => by
    cases fuel with
    | zero => exact absurd (Nat.le_trans (pvBound_pos _) hb) (by omega)
    | succ f =>
    show parseVal (f + 1) (['n', 'u', 'l', 'l'] ++ rest) = some (.null, rest)
    simp [parseVal, skipWs, isWsChar, expectLit]
  | .bool true, lvl, fuel, rest, hb, hr => by
    cases fuel with
    | zero => exact absurd (Nat.le_trans (pvBound_pos _) hb) (by omega)
    | succ f =>
    show parseVal (f + 1) (['t', 'r', 'u', 'e'] ++ rest) = some (.bool true, rest)
    simp [parseVal, skipWs, isWsChar, expectLit]
  | .bool false, lvl, fuel, rest, hb, hr => by
    cases fuel with
    | zero => exact absurd (Nat.le_trans (pvBound_pos _) hb) (by omega)
    | succ f =>
    show parseVal (f + 1) (['f', 'a', 'l', 's', 'e'] ++ rest) = some (.bool false, rest)
    simp [parseVal, skipWs, isWsChar, expectLit]
  | .num i, lvl, fuel, rest, hb, hr => by
    cases fuel with
    | zero => exact absurd (Nat.le_trans (pvBound_pos _) hb) (by omega)
    | succ f =>
    show parseVal (f + 1) (intChars i ++ rest) = some (.num i, rest)
    obtain ⟨d, ds, hnat⟩ := List.exists_cons_of_ne_nil (natChars_ne_nil i.natAbs)
    have hd : isDigitChar d = true := by
      apply natChars_digits
      rw [hnat]
      exact List.mem_cons_self d ds
    have htd : takeDigits (natChars i.natAbs ++ rest) = (natChars i.natAbs, rest) :=
      takeDigits_append _ _ (natChars_digits _) (restOk_notDigitStart hr)
    have htd' : takeDigits (d :: (ds ++ rest)) = (d :: ds, rest) := by
      rw [← List.cons_append, ← hnat]
      exact htd
    have hval' : digitsVal (d :: ds) = i.natAbs := by rw [← hnat]; exact natChars_val i.natAbs
    unfold intChars
    by_cases hneg : i < 0
    · rw [if_pos hneg]
      have hii : (-(digitsVal (d :: ds) : Int)) = i := by rw [hval']; omega
      simp [parseVal, skipWs, isWsChar, hnat, htd', hii]
    · rw [if_neg hneg]
      obtain ⟨hws, hn, ht, hf, hq, hbr, hbc, hmi, _, _, _, _, _⟩ := digit_head_facts hd
      have hii : ((digitsVal (d :: ds) : Int)) = i := by rw [hval']; omega
      rw [hnat, List.cons_append]
      simp only [parseVal]
      rw [skipWs_cons_not d hws]
      simp [hn, ht, hf, hq, hbr, hbc, hmi, hd, htd', hii]
  | .str s, lvl, fuel, rest, hb, hr => by
    cases fuel with
    | zero => exact absurd (Nat.le_trans (pvBound_pos _) hb) (by omega)
    | succ f =>
    show parseVal (f + 1) (quoteChars s.data ++ rest) = some (.str s, rest)
    have hlen := escChars_length s.data
    simp [parseVal, quoteChars, skipWs, isWsChar, List.append_assoc]
    refine ⟨s.data, parseStringBody_esc s.data _ rest ?_, stringMk_data s⟩
    omega
  | .arr [], lvl, fuel, rest, hb, hr => by
    cases fuel with
    | zero => exact absurd (Nat.le_trans (pvBound_pos _) hb) (by omega)
    | succ f =>
    show parseVal (f + 1) (['[', ']'] ++ rest) = some (.arr [], rest)
    simp [parseVal, skipWs, isWsChar]
  | .arr (x :: xs'), lvl, fuel, rest, hb, hr => by
    cases fuel with
    | zero => exact absurd (Nat.le_trans (pvBound_pos _) hb) (by omega)
    | succ f =>
    have hb' : plBound (x :: xs') ≤ f := by
      have h2 : pvBound (.arr (x :: xs')) = 1 + plBound (x :: xs') := by simp [pvBound]
      omega
    simp only [ppVal, List.cons_append, List.append_assoc, List.singleton_append,
      List.nil_append]
    simp only [parseVal]
    rw [skipWs_cons_not '[' (by decide)]
    simp only [if_neg (by decide : ¬('[' = 'n')), if_neg (by decide : ¬('[' = 't')),
      if_neg (by decide : ¬('[' = 'f')), if_neg (by decide : ¬('[' = '"')),
      eq_self_iff_true, if_true]
    obtain ⟨c, cc, hx, hws, hbr, hbc, _, _, _⟩ := ppVal_head x (lvl + 1)
    have hscr : skipWs ('\n' ::
        (joinSepChars [',', '\n'] (ppElems (x :: xs') (lvl + 1)) ++
          ('\n' :: (indentChars lvl ++ (']' :: rest))))) =
        c :: (cc ++ elemsSuffix xs' (lvl + 1) ('\n' :: (indentChars lvl ++ (']' :: rest)))) := by
      rw [skipWs_cons_ws '\n' (by decide), join_elems_eq, skipWs_indent, hx,
        List.cons_append]
      exact skipWs_cons_not c hws _
    rw [hscr]
    have harr := parseArr_pp x xs' lvl f rest hb' hr
    rw [hx, List.cons_append] at harr
    split
    · next r2 heq =>
      exact absurd (List.head_eq_of_cons_eq heq) hbr
    · next cs1 hne =>
      simp [harr]
  | .obj [], lvl, fuel, rest, hb, hr => by
    cases fuel with
    | zero => exact absurd (Nat.le_trans (pvBound_pos _) hb) (by omega)
    | succ f =>
    show parseVal (f + 1) (['\x7b', '\x7d'] ++ rest) = some (.obj [], rest)
    simp [parseVal, skipWs, isWsChar]
  | .obj ((k, v) :: kvs'), lvl, fuel, rest, hb, hr => by
    cases fuel with
    | zero => exact absurd (Nat.le_trans (pvBound_pos _) hb) (by omega)
    | succ f =>
    have hb' : pmBound ((k, v) :: kvs') ≤ f := by
      have h2 : pvBound (.obj ((k, v) :: kvs')) = 1 + pmBound ((k, v) :: kvs') := by
        simp [pvBound]
      omega
    simp only [ppVal, List.cons_append, List.append_assoc, List.singleton_append,
      List.nil_append]
    simp only [parseVal]
    rw [skipWs_cons_not '\x7b' (by decide)]
    simp only [if_neg (by decide : ¬('\x7b' = 'n')), if_neg (by decide : ¬('\x7b' = 't')),
      if_neg (by decide : ¬('\x7b' = 'f')), if_neg (by decide : ¬('\x7b' = '"')),
      if_neg (by decide : ¬('\x7b' = '[')), eq_self_iff_true, if_true]
    have hscr : skipWs ('\n' ::
        (joinSepChars [',', '\n'] (ppMembers ((k, v) :: kvs') (lvl + 1)) ++
          ('\n' :: (indentChars lvl ++ ('\x7d' :: rest))))) =
        '"' :: (escChars k.data ++
          ('"' :: (':' :: ' ' :: (ppVal v (lvl + 1) ++
            membersSuffix kvs' (lvl + 1) ('\n' :: (indentChars lvl ++ ('\x7d' :: rest))))))) := by
      rw [skipWs_cons_ws '\n' (by decide), join_members_eq, skipWs_indent]
      rw [show quoteChars k.data ++ ':' :: ' ' :: (ppVal v (lvl + 1) ++
          membersSuffix kvs' (lvl + 1) ('\n' :: (indentChars lvl ++ ('\x7d' :: rest)))) =
        '"' :: (escChars k.data ++ ('"' :: (':' :: ' ' :: (ppVal v (lvl + 1) ++
          membersSuffix kvs' (lvl + 1) ('\n' :: (indentChars lvl ++ ('\x7d' :: rest)))))))
        from by simp [quoteChars, List.append_assoc]]
      exact skipWs_cons_not '"' (by decide) _
    rw [hscr]
    have hobj := parseObj_pp k v kvs' lvl f rest hb' hr
    split
    · next r2 heq =>
      exact absurd (List.head_eq_of_cons_eq heq) (by decide)
    · next cs1 hne =>
      simp [hobj]
termination_by v lvl fuel rest => sizeOf v

/-- The element loop of the parser inverts the serialized element lines. -/
theorem parseArr_pp : ∀ (x : JSONValue) (xs : List JSONValue) (lvl fuel : Nat)
    (rest : List Char), plBound (x :: xs) ≤ fuel → restOk rest →
    parseArrItems fuel
      (ppVal x (lvl + 1) ++
        elemsSuffix xs (lvl + 1) ('\n' :: (indentChars lvl ++ (']' :: rest)))) =
      some (x :: xs, rest)
  | x, [], lvl, fuel, rest, hb, hr => by
    cases fuel with
    | zero =>
      have := plBound_pos (x :: [])
      omega
    | succ f =>
    have hsuf : restOk (elemsSuffix [] (lvl + 1)
        ('\n' :: (indentChars lvl ++ (']' :: rest)))) :=
      restOk_elemsSuffix [] (lvl + 1) _ (by simp [restOk])
    have hbx : pvBound x ≤ f := by
      have h1 := plBound_pos ([] : List JSONValue)
      have h2 : plBound (x :: []) = 1 + pvBound x + plBound [] := by simp [plBound]
      omega
    have hxv : parseVal f
        (ppVal x (lvl + 1) ++
          elemsSuffix [] (lvl + 1) ('\n' :: (indentChars lvl ++ (']' :: rest))))
        = some (x, elemsSuffix [] (lvl + 1) ('\n' :: (indentChars lvl ++ (']' :: rest)))) :=
      parseVal_pp x (lvl + 1) f _ hbx hsuf
    simp only [parseArrItems]
    rw [hxv]
    have hskip : skipWs ('\n' :: (indentChars lvl ++ (']' :: rest))) = ']' :: rest := by
      rw [skipWs_cons_ws '\n' (by decide), skipWs_indent]
      exact skipWs_cons_not ']' (by decide) _
    simp [elemsSuffix, hskip]
  | x, y :: ys, lvl, fuel, rest, hb, hr => by
    cases fuel with
    | zero =>
      have := plBound_pos (x :: y :: ys)
      omega
    | succ f =>
    have hsuf : restOk (elemsSuffix (y :: ys) (lvl + 1)
        ('\n' :: (indentChars lvl ++ (']' :: rest)))) :=
      restOk_elemsSuffix (y :: ys) (lvl + 1) _ (by simp [restOk])
    have hbx : pvBound x ≤ f := by
      have h1 := plBound_pos (y :: ys)
      have h2 : plBound (x :: y :: ys) = 1 + pvBound x + plBound (y :: ys) := by
        simp [plBound]
      omega
    have hxv : parseVal f
        (ppVal x (lvl + 1) ++
          elemsSuffix (y :: ys) (lvl + 1) ('\n' :: (indentChars lvl ++ (']' :: rest))))
        = some (x, elemsSuffix (y :: ys) (lvl + 1)
            ('\n' :: (indentChars lvl ++ (']' :: rest)))) :=
      parseVal_pp x (lvl + 1) f _ hbx hsuf
    simp only [parseArrItems]
    rw [hxv]
    have hb' : plBound (y :: ys) ≤ f := by
      have h1 := pvBound_pos x
      have h2 : plBound (x :: y :: ys) = 1 + pvBound x + plBound (y :: ys) := by
        simp [plBound]
      omega
    have hrec := parseArr_pp y ys lvl f rest hb' hr
    have heq : parseArrItems f
        ('\n' :: (joinSepChars [',', '\n'] (ppElems (y :: ys) (lvl + 1)) ++
          ('\n' :: (indentChars lvl ++ (']' :: rest))))) =
        parseArrItems f
          (ppVal y (lvl + 1) ++
            elemsSuffix ys (lvl + 1) ('\n' :: (indentChars lvl ++ (']' :: rest)))) := by
      apply parseArrItems_skip
      rw [skipWs_cons_ws '\n' (by decide), join_elems_eq, skipWs_indent]
    have hskip : skipWs (elemsSuffix (y :: ys) (lvl + 1)
        ('\n' :: (indentChars lvl ++ (']' :: rest)))) =
        elemsSuffix (y :: ys) (lvl + 1) ('\n' :: (indentChars lvl ++ (']' :: rest))) := by
      apply skipWs_cons_not ',' (by decide)
    simp only [elemsSuffix] at hskip ⊢
    rw [hskip]
    simp [heq, hrec]
termination_by x xs lvl fuel rest => sizeOf x + sizeOf xs + 1

/-- The member loop of the parser inverts the serialized member lines. -/
theorem parseObj_pp : ∀ (k : String) (v : JSONValue) (kvs : List (String × JSONValue))
    (lvl fuel : Nat) (rest : List Char), pmBound ((k, v) :: kvs) ≤ fuel → restOk rest →
    parseObjItems fuel
      ('"' :: (escChars k.data ++
        ('"' :: (':' :: ' ' :: (ppVal v (lvl + 1) ++
          membersSuffix kvs (lvl + 1) ('\n' :: (indentChars lvl ++ ('\x7d' :: rest)))))))) =
      some ((k, v) :: kvs, rest)
  | k, v, [], lvl, fuel, rest, hb, hr => by
    cases fuel with
    | zero =>
      have := pmBound_pos ((k, v) :: [])
      omega
    | succ f =>
    have hsuf : restOk (membersSuffix [] (lvl + 1)
        ('\n' :: (indentChars lvl ++ ('\x7d' :: rest)))) :=
      restOk_membersSuffix [] (lvl + 1) _ (by simp [restOk])
    simp only [parseObjItems]
    rw [skipWs_cons_not '"' (by decide)]
    have hlen : k.data.length <
        (escChars k.data ++ '"' :: (':' :: ' ' :: (ppVal v (lvl + 1) ++
          membersSuffix [] (lvl + 1) ('\n' :: (indentChars lvl ++ ('\x7d' :: rest)))))).length
          + 1 := by
      have := escChars_length k.data
      simp only [List.length_append, List.length_cons]
      omega
    have hstr := parseStringBody_esc k.data _
      (':' :: ' ' :: (ppVal v (lvl + 1) ++
        membersSuffix [] (lvl + 1) ('\n' :: (indentChars lvl ++ ('\x7d' :: rest))))) hlen
    have hval : parseVal f
        (' ' :: (ppVal v (lvl + 1) ++
          membersSuffix [] (lvl + 1) ('\n' :: (indentChars lvl ++ ('\x7d' :: rest))))) =
        some (v, membersSuffix [] (lvl + 1)
          ('\n' :: (indentChars lvl ++ ('\x7d' :: rest)))) := by
      rw [parseVal_skip (skipWs_cons_ws ' ' (by decide) _) f]
      have hbv : pvBound v ≤ f := by
        have h1 := pmBound_pos ([] : List (String × JSONValue))
        have h2 : pmBound ((k, v) :: []) = 1 + pvBound v + pmBound [] := by simp [pmBound]
        omega
      exact parseVal_pp v (lvl + 1) f _ hbv hsuf
    simp only [hstr, skipWs_cons_not ':' (by decide), hval]
    have hskip : skipWs ('\n' :: (indentChars lvl ++ ('\x7d' :: rest))) = '\x7d' :: rest := by
      rw [skipWs_cons_ws '\n' (by decide), skipWs_indent]
      exact skipWs_cons_not '\x7d' (by decide) _
    simp [membersSuffix, hskip, stringMk_data]
  | k, v, (k2, v2) :: ms, lvl, fuel, rest, hb, hr => by
    cases fuel with
    | zero =>
      have := pmBound_pos ((k, v) :: (k2, v2) :: ms)
      omega
    | succ f =>
    have hsuf : restOk (membersSuffix ((k2, v2) :: ms) (lvl + 1)
        ('\n' :: (indentChars lvl ++ ('\x7d' :: rest)))) :=
      restOk_membersSuffix ((k2, v2) :: ms) (lvl + 1) _ (by simp [restOk])
    simp only [parseObjItems]
    rw [skipWs_cons_not '"' (by decide)]
    have hlen : k.data.length <
        (escChars k.data ++ '"' :: (':' :: ' ' :: (ppVal v (lvl + 1) ++
          membersSuffix ((k2, v2) :: ms) (lvl + 1)
            ('\n' :: (indentChars lvl ++ ('\x7d' :: rest)))))).length + 1 := by
      have := escChars_length k.data
      simp only [List.length_append, List.length_cons]
      omega
    have hstr := parseStringBody_esc k.data _
      (':' :: ' ' :: (ppVal v (lvl + 1) ++
        membersSuffix ((k2, v2) :: ms) (lvl + 1)
          ('\n' :: (indentChars lvl ++ ('\x7d' :: rest))))) hlen
    have hval : parseVal f
        (' ' :: (ppVal v (lvl + 1) ++
          membersSuffix ((k2, v2) :: ms) (lvl + 1)
            ('\n' :: (indentChars lvl ++ ('\x7d' :: rest))))) =
        some (v, membersSuffix ((k2, v2) :: ms) (lvl + 1)
          ('\n' :: (indentChars lvl ++ ('\x7d' :: rest)))) := by
      rw [parseVal_skip (skipWs_cons_ws ' ' (by decide) _) f]
      have hbv : pvBound v ≤ f := by
        have h1 := pmBound_pos ((k2, v2) :: ms)
        have h2 : pmBound ((k, v) :: (k2, v2) :: ms) =
            1 + pvBound v + pmBound ((k2, v2) :: ms) := by simp [pmBound]
        omega
      exact parseVal_pp v (lvl + 1) f _ hbv hsuf
    simp only [hstr, skipWs_cons_not ':' (by decide), hval]
    have hb' : pmBound ((k2, v2) :: ms) ≤ f := by
      have h1 := pvBound_pos v
      have h2 : pmBound ((k, v) :: (k2, v2) :: ms) =
          1 + pvBound v + pmBound ((k2, v2) :: ms) := by simp [pmBound]
      omega
    have hrec := parseObj_pp k2 v2 ms lvl f rest hb' hr
    have heq : parseObjItems f
        ('\n' :: (joinSepChars [',', '\n'] (ppMembers ((k2, v2) :: ms) (lvl + 1)) ++
          ('\n' :: (indentChars lvl ++ ('\x7d' :: rest))))) =
        parseObjItems f
          ('"' :: (escChars k2.data ++
            ('"' :: (':' :: ' ' :: (ppVal v2 (lvl + 1) ++
              membersSuffix ms (lvl + 1) ('\n' :: (indentChars lvl ++ ('\x7d' :: rest)))))))) := by
      apply parseObjItems_skip
      rw [skipWs_cons_ws '\n' (by decide), join_members_eq, skipWs_indent]
      rw [show quoteChars k2.data ++ ':' :: ' ' :: (ppVal v2 (lvl + 1) ++
          membersSuffix ms (lvl + 1) ('\n' :: (indentChars lvl ++ ('\x7d' :: rest)))) =
        '"' :: (escChars k2.data ++ ('"' :: (':' :: ' ' :: (ppVal v2 (lvl + 1) ++
          membersSuffix ms (lvl + 1) ('\n' :: (indentChars lvl ++ ('\x7d' :: rest)))))))
        from by simp [quoteChars, List.append_assoc]]
    have hskip : skipWs (membersSuffix ((k2, v2) :: ms) (lvl + 1)
        ('\n' :: (indentChars lvl ++ ('\x7d' :: rest)))) =
        membersSuffix ((k2, v2) :: ms) (lvl + 1)
          ('\n' :: (indentChars lvl ++ ('\x7d' :: rest))) := by
      apply skipWs_cons_not ',' (by decide)
    simp only [membersSuffix] at hskip ⊢
    rw [hskip]
    simp [heq, hrec, stringMk_data]
termination_by k v kvs lvl fuel rest => sizeOf v + sizeOf kvs + 1

end

theorem intChars_length_pos (i : Int) : 1 ≤ (intChars i).length := by
  unfold intChars
  have h := natChars_ne_nil i.natAbs
  by_cases hneg : i < 0
  · rw [if_pos hneg]; simp
  · rw [if_neg hneg]
    cases he : natChars i.natAbs with
    | nil => exact absurd he h
    | cons c cs => simp

mutual

/-- The fuel bound of a value never exceeds the length of its serialization. -/
theorem pvBound_le_len : ∀ (v : JSONValue) (lvl : Nat), pvBound v ≤ (ppVal v lvl).length
  | .null, lvl => by simp [pvBound, ppVal]
  | .bool true, lvl => by simp [pvBound, ppVal]
  | .bool false, lvl => by simp [pvBound, ppVal]
  | .num i, lvl => by
    have := intChars_length_pos i
    simp only [pvBound, ppVal]
    omega
  | .str s, lvl => by simp [pvBound, ppVal, quoteChars]
  | .arr [], lvl => by simp [pvBound, plBound, ppVal]
  | .arr (x :: xs), lvl => by
    have h := plBound_le_len x xs (lvl + 1)
    have h2 : pvBound (.arr (x :: xs)) = 1 + plBound (x :: xs) := by simp [pvBound]
    simp only [ppVal, List.length_cons, List.length_append, indentChars,
      List.length_replicate, List.length_singleton]
    omega
  | .obj [], lvl => by simp [pvBound, pmBound, ppVal]
  | .obj ((k, v) :: kvs), lvl => by
    have h := pmBound_le_len k v kvs (lvl + 1)
    have h2 : pvBound (.obj ((k, v) :: kvs)) = 1 + pmBound ((k, v) :: kvs) := by
      simp [pvBound]
    simp only [ppVal, List.length_cons, List.length_append, indentChars,
      List.length_replicate, List.length_singleton]
    omega
termination_by v lvl => sizeOf v

/-- Element-list fuel bound versus joined serialized length. -/
theorem plBound_le_len : ∀ (x : JSONValue) (xs : List JSONValue) (lvl : Nat),
    plBound (x :: xs) ≤ (joinSepChars [',', '\n'] (ppElems (x :: xs) lvl)).length + 2
  | x, [], lvl => by
    have h := pvBound_le_len x lvl
    simp only [ppElems, joinSepChars, plBound, List.length_append, indentChars,
      List.length_replicate]
    omega
  | x, y :: ys, lvl => by
    have h := pvBound_le_len x lvl
    have h2 := plBound_le_len y ys lvl
    have h3 : plBound (x :: y :: ys) = 1 + pvBound x + plBound (y :: ys) := by
      simp [plBound]
    simp only [ppElems, joinSepChars, List.length_append, indentChars,
      List.length_replicate, List.length_cons] at h2 ⊢
    omega
termination_by x xs lvl => sizeOf x + sizeOf xs + 1

/-- Member-list fuel bound versus joined serialized length. -/
theorem pmBound_le_len : ∀ (k : String) (v : JSONValue) (kvs : List (String × JSONValue))
    (lvl : Nat), pmBound ((k, v) :: kvs) ≤
      (joinSepChars [',', '\n'] (ppMembers ((k, v) :: kvs) lvl)).length + 2
  | k, v, [], lvl => by
    have h := pvBound_le_len v lvl
    simp only [ppMembers, joinSepChars, pmBound, List.length_append, indentChars,
      List.length_replicate, quoteChars, List.length_cons]
    omega
  | k, v, (k2, v2) :: ms, lvl => by
    have h := pvBound_le_len v lvl
    have h2 := pmBound_le_len k2 v2 ms lvl
    have h3 : pmBound ((k, v) :: (k2, v2) :: ms) =
        1 + pvBound v + pmBound ((k2, v2) :: ms) := by simp [pmBound]
    simp only [ppMembers, joinSepChars, List.length_append, indentChars,
      List.length_replicate, quoteChars, List.length_cons] at h2 ⊢
    omega
termination_by k v kvs lvl => sizeOf v + sizeOf kvs + 1

end

/-- `JSON.parse` inverts `JSON.stringify(·, null, 2)` on every value of the
model: the serializer/parser pair of the library round-trips. -/
theorem jsonParse_stringifyPretty (v : JSONValue) :
    jsonParse (jsonStringifyPretty v) = some v := by
  have hfuel : pvBound v ≤ (ppVal v 0).length + 1 :=
    Nat.le_trans (pvBound_le_len v 0) (by omega)
  have h := parseVal_pp v 0 ((ppVal v 0).length + 1) [] hfuel (by simp [restOk])
  rw [List.append_nil] at h
  unfold jsonParse jsonStringifyPretty
  simp [h, skipWs]

theorem char_toNat_valid (c : Char) :
    c.toNat < 0xD800 ∨ (0xE000 ≤ c.toNat ∧ c.toNat < 0x110000) := by
  have h := c.valid
  unfold UInt32.isValidChar at h
  unfold Nat.isValidChar at h
  exact h

theorem utf8EncodeChar_length (c : Char) :
    1 ≤ (utf8EncodeChar c).length ∧ (utf8EncodeChar c).length ≤ 4 := by
  unfold utf8EncodeChar
  by_cases h1 : c.toNat < 0x80
  · simp [h1]
  · by_cases h2 : c.toNat < 0x800
    · simp [h1, h2]
    · by_cases h3 : c.toNat < 0x10000
      · simp [h1, h2, h3]
      · simp [h1, h2, h3]

theorem utf8DecodeAux_encode : ∀ (cs : List Char) (fuel : Nat),
    (utf8EncodeChars cs).length ≤ fuel → utf8DecodeAux fuel (utf8EncodeChars cs) = cs := by
  intro cs
  induction cs with
  | nil =>
    intro fuel hf
    cases fuel with
    | zero => rfl
    | succ f => rfl
  | cons c cs ih =>
    intro fuel hf
    have hv := char_toNat_valid c
    have hlen1 := utf8EncodeChar_length c
    have hlen : (utf8EncodeChars (c :: cs)).length =
        (utf8EncodeChar c).length + (utf8EncodeChars cs).length := by
      simp [utf8EncodeChars]
    cases fuel with
    | zero => omega
    | succ f =>
    have hfc : (utf8EncodeChars cs).length ≤ f := by omega
    show utf8DecodeAux (f + 1) (utf8EncodeChar c ++ utf8EncodeChars cs) = c :: cs
    unfold utf8EncodeChar
    by_cases h1 : c.toNat < 0x80
    · simp only [if_pos h1, List.cons_append, List.nil_append]
      unfold utf8DecodeAux
      rw [if_pos h1, Char.ofNat_toNat, ih f hfc]
    · by_cases h2 : c.toNat < 0x800
      · rw [if_neg h1, if_pos h2]
        simp only [List.cons_append, List.nil_append]
        unfold utf8DecodeAux
        have hb0a : ¬(0xC0 + c.toNat / 64 < 0x80) := by omega
        have hb0b : ¬(0xC0 + c.toNat / 64 < 0xC0) := by omega
        have hb0c : 0xC0 + c.toNat / 64 < 0xE0 := by omega
        have hb1 : isContByte (0x80 + c.toNat % 64) = true := by
          unfold isContByte
          have : c.toNat % 64 < 64 := Nat.mod_lt _ (by omega)
          simp
          omega
        have hcp : (0xC0 + c.toNat / 64 - 0xC0) * 64 + (0x80 + c.toNat % 64 - 0x80) =
            c.toNat := by omega
        rw [if_neg hb0a, if_neg hb0b, if_pos hb0c]
        simp only [hb1, if_true, hcp]
        rw [if_pos (by omega), Char.ofNat_toNat, ih f hfc]
      · by_cases h3 : c.toNat < 0x10000
        · rw [if_neg h1, if_neg h2, if_pos h3]
          simp only [List.cons_append, List.nil_append]
          unfold utf8DecodeAux
          have hb0a : ¬(0xE0 + c.toNat / 4096 < 0x80) := by omega
          have hb0b : ¬(0xE0 + c.toNat / 4096 < 0xC0) := by omega
          have hb0c : ¬(0xE0 + c.toNat / 4096 < 0xE0) := by omega
          have hb0d : 0xE0 + c.toNat / 4096 < 0xF0 := by omega
          have hm1 : (c.toNat / 64) % 64 < 64 := Nat.mod_lt _ (by omega)
          have hm2 : c.toNat % 64 < 64 := Nat.mod_lt _ (by omega)
          have hb1 : isContByte (0x80 + (c.toNat / 64) % 64) = true := by
            unfold isContByte; simp; omega
          have hb2 : isContByte (0x80 + c.toNat % 64) = true := by
            unfold isContByte; simp; omega
          have hcp : (0xE0 + c.toNat / 4096 - 0xE0) * 4096 +
              (0x80 + (c.toNat / 64) % 64 - 0x80) * 64 + (0x80 + c.toNat % 64 - 0x80) =
              c.toNat := by omega
          rw [if_neg hb0a, if_neg hb0b, if_neg hb0c, if_pos hb0d]
          simp only [hb1, hb2, Bool.and_self, if_true, hcp]
          rw [if_pos (by omega), Char.ofNat_toNat, ih f hfc]
        · rw [if_neg h1, if_neg h2, if_neg h3]
          simp only [List.cons_append, List.nil_append]
          unfold utf8DecodeAux
          have hup : c.toNat < 0x110000 := by omega
          have hb0a : ¬(0xF0 + c.toNat / 262144 < 0x80) := by omega
          have hb0b : ¬(0xF0 + c.toNat / 262144 < 0xC0) := by omega
          have hb0c : ¬(0xF0 + c.toNat / 262144 < 0xE0) := by omega
          have hb0d : ¬(0xF0 + c.toNat / 262144 < 0xF0) := by omega
          have hb0e : 0xF0 + c.toNat / 262144 < 0xF8 := by omega
          have hm1 : (c.toNat / 4096) % 64 < 64 := Nat.mod_lt _ (by omega)
          have hm2 : (c.toNat / 64) % 64 < 64 := Nat.mod_lt _ (by omega)
          have hm3 : c.toNat % 64 < 64 := Nat.mod_lt _ (by omega)
          have hb1 : isContByte (0x80 + (c.toNat / 4096) % 64) = true := by
            unfold isContByte; simp; omega
          have hb2 : isContByte (0x80 + (c.toNat / 64) % 64) = true := by
            unfold isContByte; simp; omega
          have hb3 : isContByte (0x80 + c.toNat % 64) = true := by
            unfold isContByte; simp; omega
          have hcp : (0xF0 + c.toNat / 262144 - 0xF0) * 262144 +
              (0x80 + (c.toNat / 4096) % 64 - 0x80) * 4096 +
              (0x80 + (c.toNat / 64) % 64 - 0x80) * 64 + (0x80 + c.toNat % 64 - 0x80) =
              c.toNat := by omega
          rw [if_neg hb0a, if_neg hb0b, if_neg hb0c, if_neg hb0d, if_pos hb0e]
          simp only [hb1, hb2, hb3, Bool.and_self, if_true, hcp]
          rw [if_pos (by omega), Char.ofNat_toNat, ih f hfc]

/-- `TextDecoder` inverts `TextEncoder` on every string. -/
theorem utf8Decode_encode (s : String) : utf8Decode (utf8Encode s) = s := by
  unfold utf8Decode utf8Encode
  rw [utf8DecodeAux_encode s.data _ (Nat.le_refl _), stringMk_data]

/-- Encoding a string that starts with an ASCII character puts that character's
code as the first byte. -/
theorem utf8EncodeChars_ascii_cons (c : Char) (cs : List Char) (h : c.toNat < 0x80) :
    utf8EncodeChars (c :: cs) = c.toNat :: utf8EncodeChars cs := by
  simp [utf8EncodeChars, utf8EncodeChar, h]

mutual

theorem validateJSON_true : ∀ (v : JSONValue), validateJSON v = true
  | .null => rfl
  | .bool _ => rfl
  | .num _ => rfl
  | .str _ => rfl
  | .arr xs => by
    rw [validateJSON]
    exact validateJSONList_true xs
  | .obj kvs => by
    rw [validateJSON]
    exact validateJSONMems_true kvs
termination_by v => sizeOf v

theorem validateJSONList_true : ∀ (xs : List JSONValue), validateJSONList xs = true
  | [] => rfl
  | x :: xs => by
    rw [validateJSONList, validateJSON_true x, validateJSONList_true xs]
    rfl
termination_by xs => sizeOf xs

theorem validateJSONMems_true : ∀ (kvs : List (String × JSONValue)),
    validateJSONMems kvs = true
  | [] => rfl
  | (k, v) :: kvs => by
    rw [validateJSONMems, validateJSON_true v, validateJSONMems_true kvs]
    rfl
termination_by kvs => sizeOf kvs

end

theorem collectPairs_append : ∀ (A B : List NameSlot), walkClean A = true →
    collectPairs (A ++ B) = collectPairs A ++ collectPairs B
  | [], B, _ => by simp [collectPairs]
  | [_], B, h => by simp [walkClean] at h
  | n :: fs :: rest, B, h => by
    have hand : ((match pairOutcome fs with
        | .abort => false
        | _ => true) && walkClean rest) = true := h
    cases hpo : pairOutcome fs with
    | abort =>
      rw [hpo] at hand
      simp at hand
    | skip =>
      rw [hpo] at hand
      simp at hand
      have ih := collectPairs_append rest B hand
      show collectPairs (n :: fs :: (rest ++ B)) =
        collectPairs (n :: fs :: rest) ++ collectPairs B
      rw [show collectPairs (n :: fs :: (rest ++ B)) =
          (match pairOutcome fs with
           | .entry c => (slotToString n, c) :: collectPairs (rest ++ B)
           | .skip => collectPairs (rest ++ B)
           | .abort => []) from rfl,
        show collectPairs (n :: fs :: rest) =
          (match pairOutcome fs with
           | .entry c => (slotToString n, c) :: collectPairs rest
           | .skip => collectPairs rest
           | .abort => []) from rfl,
        hpo, ih]
    | entry c =>
      rw [hpo] at hand
      simp at hand
      have ih := collectPairs_append rest B hand
      show collectPairs (n :: fs :: (rest ++ B)) =
        collectPairs (n :: fs :: rest) ++ collectPairs B
      rw [show collectPairs (n :: fs :: (rest ++ B)) =
          (match pairOutcome fs with
           | .entry c => (slotToString n, c) :: collectPairs (rest ++ B)
           | .skip => collectPairs (rest ++ B)
           | .abort => []) from rfl,
        show collectPairs (n :: fs :: rest) =
          (match pairOutcome fs with
           | .entry c => (slotToString n, c) :: collectPairs rest
           | .skip => collectPairs rest
           | .abort => []) from rfl,
        hpo, ih, List.cons_append]

theorem filterPairs_length_even : ∀ (t : String) (slots : List NameSlot),
    (filterPairs t slots).length % 2 = 0
  | t, [] => by simp [filterPairs]
  | t, [n] => by
    unfold filterPairs
    split <;> simp
  | t, n :: fs :: rest => by
    unfold filterPairs
    have h := filterPairs_length_even t rest
    split
    · exact h
    · simp only [List.length_cons]
      omega

theorem countPairsNamed_filterPairs : ∀ (t : String) (slots : List NameSlot),
    countPairsNamed t (filterPairs t slots) = 0
  | t, [] => by simp [filterPairs, countPairsNamed]
  | t, [n] => by
    unfold filterPairs
    split
    · rfl
    · next h =>
      simp [countPairsNamed, h]
  | t, n :: fs :: rest => by
    unfold filterPairs
    have ih := countPairsNamed_filterPairs t rest
    split
    · exact ih
    · next h =>
      simp [countPairsNamed, h, ih]

theorem countPairsNamed_append : ∀ (t : String) (A B : List NameSlot), A.length % 2 = 0 →
    countPairsNamed t (A ++ B) = countPairsNamed t A + countPairsNamed t B
  | t, [], B, _ => by simp [countPairsNamed]
  | t, [_], B, h => by simp at h
  | t, n :: fs :: rest, B, h => by
    have h' : rest.length % 2 = 0 := by
      simp only [List.length_cons] at h
      omega
    have ih := countPairsNamed_append t rest B h'
    show countPairsNamed t (n :: fs :: (rest ++ B)) =
      countPairsNamed t (n :: fs :: rest) + countPairsNamed t B
    rw [show countPairsNamed t (n :: fs :: (rest ++ B)) =
        (if slotToString n = t then 1 else 0) + countPairsNamed t (rest ++ B) from rfl,
      show countPairsNamed t (n :: fs :: rest) =
        (if slotToString n = t then 1 else 0) + countPairsNamed t rest from rfl,
      ih]
    omega

theorem mapGet_append_last : ∀ (X : List (String × List Nat)) (k : String) (v : List Nat),
    mapGet (X ++ [(k, v)]) k = some v
  | [], k, v => by simp [mapGet]
  | (k2, v2) :: X, k, v => by
    have ih := mapGet_append_last X k v
    show mapGet ((k2, v2) :: (X ++ [(k, v)])) k = some v
    unfold mapGet
    rw [ih]

/-- The filter loop of `embedFile`/`removeFile` (which uses only non-throwing
untyped lookups) preserves walk-cleanliness. -/
theorem walkClean_filterPairs : ∀ (t : String) (slots : List NameSlot),
    walkClean slots = true → walkClean (filterPairs t slots) = true
  | t, [], h => h
  | t, [n], h => by simp [walkClean] at h
  | t, n :: fs :: rest, h => by
    have hand : ((match pairOutcome fs with
        | .abort => false
        | _ => true) && walkClean rest) = true := h
    rw [Bool.and_eq_true] at hand
    have hfs : (match pairOutcome fs with
        | .abort => false
        | _ => true) = true := hand.1
    have hr : walkClean rest = true := hand.2
    have ih := walkClean_filterPairs t rest hr
    show walkClean (if slotToString n = t then filterPairs t rest
      else n :: fs :: filterPairs t rest) = true
    by_cases hn : slotToString n = t
    · rw [if_pos hn]
      exact ih
    · rw [if_neg hn]
      show ((match pairOutcome fs with
        | .abort => false
        | _ => true) && walkClean (filterPairs t rest)) = true
      rw [hfs, ih]
      rfl

/-- After `embedFile`, the walk yields the filtered old pairs followed by the
new entry. -/
theorem getEmbeddedFiles_embedFile (d : PDFDoc) (n : String) (bs : List Nat)
    (hclean : walkClean (docSlots d) = true) :
    getEmbeddedFiles (embedFile d n bs) =
      collectPairs (filterPairs ("(" ++ n ++ ")") (docSlots d)) ++ [("(" ++ n ++ ")", bs)] := by
  have hnew : collectPairs [NameSlot.pstr n,
      NameSlot.dict (FileSpec.mk (some (EFDict.mk (some (FObj.stream bs)))))] =
      [("(" ++ n ++ ")", bs)] := by
    simp [collectPairs, pairOutcome, slotToString]
  cases d with
  | mk cr kw nm =>
    cases nm with
    | none =>
      simp only [embedFile, getEmbeddedFiles, docSlots]
      rw [collectPairs_append _ _ (walkClean_filterPairs ("(" ++ n ++ ")") [] rfl), hnew]
    | some nd =>
      cases hef : nd.embeddedFiles with
      | none =>
        simp only [embedFile, getEmbeddedFiles, docSlots, hef]
        rw [collectPairs_append _ _ (walkClean_filterPairs ("(" ++ n ++ ")") [] rfl), hnew]
      | some ef =>
        cases hna : ef.namesArr with
        | none =>
          simp only [embedFile, getEmbeddedFiles, docSlots, hef, hna]
          rw [collectPairs_append _ _ (walkClean_filterPairs ("(" ++ n ++ ")") [] rfl), hnew]
        | some slots =>
          have hcs : walkClean slots = true := by
            simpa [docSlots, hef, hna] using hclean
          simp only [embedFile, getEmbeddedFiles, docSlots, hef, hna]
          rw [collectPairs_append _ _ (walkClean_filterPairs _ _ hcs), hnew]

/-- `addMetadata` touches only Info-dictionary fields: the embedded files are
unchanged. -/
theorem getEmbeddedFiles_addMetadata (d : PDFDoc) (k v : String) :
    getEmbeddedFiles (addMetadata d k v) = getEmbeddedFiles d := rfl

/-- The slots after `embedFile`. -/
theorem docSlots_embedFile (d : PDFDoc) (n : String) (bs : List Nat) :
    docSlots (embedFile d n bs) =
      filterPairs ("(" ++ n ++ ")") (docSlots d) ++
        [NameSlot.pstr n,
         NameSlot.dict (FileSpec.mk (some (EFDict.mk (some (FObj.stream bs)))))] := by
  cases d with
  | mk cr kw nm =>
    cases nm with
    | none => simp [embedFile, docSlots]
    | some nd =>
      cases hef : nd.embeddedFiles with
      | none => simp [embedFile, docSlots, hef]
      | some ef =>
        cases hna : ef.namesArr with
        | none => simp [embedFile, docSlots, hef, hna]
        | some slots => simp [embedFile, docSlots, hef, hna]

theorem docSlots_addMetadata (d : PDFDoc) (k v : String) :
    docSlots (addMetadata d k v) = docSlots d := rfl

/-- On a walk-clean document the entry written by `embedFile` is what `get`
then returns (on a document whose walk aborts before the appended pair, the
program never reaches it). -/
theorem mapGet_embedFile (d : PDFDoc) (n : String) (bs : List Nat)
    (hclean : walkClean (docSlots d) = true) :
    mapGet (getEmbeddedFiles (embedFile d n bs)) ("(" ++ n ++ ")") = some bs := by
  rw [getEmbeddedFiles_embedFile d n bs hclean]
  exact mapGet_append_last _ _ _

/-- `removeFile` either leaves the slots alone or filters them. -/
theorem docSlots_removeFile (d : PDFDoc) (n : String) :
    docSlots ((removeFile d n).1) = docSlots d ∨
    docSlots ((removeFile d n).1) = filterPairs ("(" ++ n ++ ")") (docSlots d) := by
  cases d with
  | mk cr kw nm =>
    cases nm with
    | none => exact Or.inl rfl
    | some nd =>
      cases hef : nd.embeddedFiles with
      | none =>
        left
        simp [removeFile, hef]
      | some ef =>
        cases hna : ef.namesArr with
        | none =>
          left
          simp [removeFile, hef, hna]
        | some slots =>
          simp only [removeFile, hef, hna]
          by_cases ha : anyPairNamed ("(" ++ n ++ ")") slots = true
          · rw [if_pos ha]
            right
            simp [docSlots, hef, hna]
          · rw [if_neg ha]
            left
            simp [docSlots, hef, hna]

/-- `removeFile` preserves walk-cleanliness. -/
theorem walkClean_removeFile (d : PDFDoc) (n : String)
    (hclean : walkClean (docSlots d) = true) :
    walkClean (docSlots ((removeFile d n).1)) = true := by
  rcases docSlots_removeFile d n with h | h
  · rw [h]
    exact hclean
  · rw [h]
    exact walkClean_filterPairs _ _ hclean

/-! ## Facts about the codec loop and envelope bytes -/

theorem decompressLoop_stop (fuel : Nat) (bs : List Nat)
    (hg : hasGzipHeader bs = false) (hz : hasZlibHeader bs = false) :
    decompressLoop fuel bs = .ok bs := by
  cases fuel with
  | zero => rfl
  | succ f =>
    unfold decompressLoop
    rw [hg, hz]
    rfl

theorem decompressLoop_gzip (fuel : Nat) (bs : List Nat) :
    decompressLoop (fuel + 1) (pakoGzip bs) = decompressLoop fuel bs := by
  have hlen : ¬((pakoGzip bs).length < 2) := by simp [pakoGzip]
  have hg : hasGzipHeader (pakoGzip bs) = true := by simp [hasGzipHeader, pakoGzip]
  have hu : pakoUngzip (pakoGzip bs) = some bs := rfl
  have hfn : decompressFn (pakoGzip bs) = .ok bs := by
    unfold decompressFn
    rw [if_neg hlen, if_pos hg, hu]
  show (if hasGzipHeader (pakoGzip bs) || hasZlibHeader (pakoGzip bs) then
      match decompressFn (pakoGzip bs) with
      | .ok out => decompressLoop fuel out
      | .error e => .error e
    else .ok (pakoGzip bs)) = decompressLoop fuel bs
  rw [hg]
  simp only [Bool.true_or, if_true, hfn]

/-- The serialized envelope's first byte is plain ASCII and matches neither
compression magic. -/
theorem envelope_bytes_head (v : JSONValue) :
    ∃ b bs, utf8Encode (jsonStringifyPretty v) = b :: bs ∧
      hasGzipHeader (b :: bs) = false ∧ hasZlibHeader (b :: bs) = false := by
  obtain ⟨c, cc, hx, _, _, _, h31, h120, h128⟩ := ppVal_head v 0
  have henc : utf8Encode (jsonStringifyPretty v) = c.toNat :: utf8EncodeChars cc := by
    show utf8EncodeChars (String.mk (ppVal v 0)).data = _
    rw [show (String.mk (ppVal v 0)).data = ppVal v 0 from rfl, hx]
    exact utf8EncodeChars_ascii_cons c cc h128
  refine ⟨c.toNat, utf8EncodeChars cc, henc, ?_, ?_⟩
  · cases he : utf8EncodeChars cc with
    | nil => rfl
    | cons b1 r => simp [hasGzipHeader, h31]
  · cases he : utf8EncodeChars cc with
    | nil => rfl
    | cons b1 r => simp [hasZlibHeader, h120]

/-- The parse block inverts plain (uncompressed) envelope bytes regardless of
the `decompress` option. -/
theorem extractParse_plain (v : JSONValue) (dec : Option Bool) :
    extractParse (utf8Encode (jsonStringifyPretty v)) dec = .ok v := by
  obtain ⟨b, bs, henc, hg, hz⟩ := envelope_bytes_head v
  unfold extractParse
  simp only [henc, hg, hz, Bool.or_self, Bool.false_and, Bool.false_eq_true, if_false,
    Bool.and_self]
  rw [← henc, utf8Decode_encode, jsonParse_stringifyPretty]

/-- The parse block inverts once-gzipped envelope bytes whenever
decompression is not disabled. -/
theorem extractParse_gzip (v : JSONValue) (dec : Option Bool) (hdec : dec ≠ some false) :
    extractParse (pakoGzip (utf8Encode (jsonStringifyPretty v))) dec = .ok v := by
  obtain ⟨b, bs, henc, hg, hz⟩ := envelope_bytes_head v
  have hloop : decompressLoop MAX_LAYERS (pakoGzip (utf8Encode (jsonStringifyPretty v))) =
      .ok (utf8Encode (jsonStringifyPretty v)) := by
    show decompressLoop (4 + 1) _ = _
    rw [decompressLoop_gzip, henc, decompressLoop_stop _ _ hg hz]
  have hdecb : (dec == some false) = false := by
    cases dec with
    | none => rfl
    | some b =>
      cases b with
      | false => exact absurd rfl hdec
      | true => rfl
  unfold extractParse
  simp only [show hasGzipHeader (pakoGzip (utf8Encode (jsonStringifyPretty v))) = true
      from rfl,
    Bool.true_or, hdecb, Bool.not_false, Bool.and_self, Bool.and_true, Bool.true_and,
    if_true, hloop, utf8Decode_encode, jsonParse_stringifyPretty]

/-- The parse block inverts twice-gzipped envelope bytes whenever
decompression is not disabled. -/
theorem extractParse_gzip2 (v : JSONValue) (dec : Option Bool) (hdec : dec ≠ some false) :
    extractParse (pakoGzip (pakoGzip (utf8Encode (jsonStringifyPretty v)))) dec = .ok v := by
  obtain ⟨b, bs, henc, hg, hz⟩ := envelope_bytes_head v
  have hloop : decompressLoop MAX_LAYERS
      (pakoGzip (pakoGzip (utf8Encode (jsonStringifyPretty v)))) =
      .ok (utf8Encode (jsonStringifyPretty v)) := by
    show decompressLoop (3 + 1 + 1) _ = _
    rw [decompressLoop_gzip, decompressLoop_gzip, henc, decompressLoop_stop _ _ hg hz]
  have hdecb : (dec == some false) = false := by
    cases dec with
    | none => rfl
    | some b =>
      cases b with
      | false => exact absurd rfl hdec
      | true => rfl
  unfold extractParse
  simp only [show hasGzipHeader (pakoGzip (pakoGzip (utf8Encode (jsonStringifyPretty v)))) =
      true from rfl,
    Bool.true_or, hdecb, Bool.not_false, Bool.and_self, Bool.and_true, Bool.true_and,
    if_true, hloop, utf8Decode_encode, jsonParse_stringifyPretty]

/-! ## Facts about envelope property access -/

theorem envelopeJson_payload (p : StructPDFPayload) :
    jProp (envelopeJson p) "payload" = some p.payload := by
  simp [envelopeJson, jProp, objGet]

theorem envelopeJson_metadata (p : StructPDFPayload) :
    jProp (envelopeJson p) "metadata" = some (metadataJson p.metadata) := by
  simp [envelopeJson, jProp, objGet]

theorem integrityGateValue_envelope (p : StructPDFPayload) :
    integrityGateValue (envelopeJson p) =
      match p.metadata.integrity with
      | some i => some (.obj [("algorithm", .str i.algorithm), ("hash", .str i.hash)])
      | none => none := by
  cases hi : p.metadata.integrity with
  | none =>
    unfold integrityGateValue
    rw [envelopeJson_metadata]
    simp [metadataJson, hi, jProp, objGet]
  | some i =>
    unfold integrityGateValue
    rw [envelopeJson_metadata]
    simp [metadataJson, hi, jProp, objGet]

theorem preparePayload_payload (data : JSONValue) (opts : InjectionOptions)
    (now : String) : (preparePayload data opts now).payload = data := rfl

theorem injectFinalPayload_payload (data : JSONValue) (opts : InjectionOptions)
    (now : String) : (injectFinalPayload data opts now).payload = data := by
  simp only [injectFinalPayload]
  split
  · rfl
  · rfl

theorem injectFinalPayload_integrity_none (data : JSONValue) (opts : InjectionOptions)
    (now : String) (h : opts.addIntegrity = false) :
    (injectFinalPayload data opts now).metadata.integrity = none := by
  have hp : (preparePayload data opts now).metadata.integrity = none := by
    unfold preparePayload
    rw [h]
    rfl
  simp only [injectFinalPayload]
  split
  · exact hp
  · exact hp

/-! ## The inject/extract engine -/

/-- A successful injection, characterised: with valid inputs, a satisfied
overwrite guard and a payload under the size cap, `inject` returns the
modified document and a success result. -/
theorem inject_ok (d : PDFDoc) (data : JSONValue) (opts : InjectionOptions) (now : String)
    (hurl : validateURL opts.schemaUrl = true)
    (hguard : opts.overwrite = true ∨ hasStructPDFData d = false)
    (hsize : (injectBytes data opts now).length ≤ MAX_PAYLOAD_SIZE) :
    inject (.valid d) data opts now =
      .ok (injectDoc d data opts now,
        { success := true,
          metadata := (injectFinalPayload data opts now).metadata,
          warnings :=
            if injectWillCompress data opts now then ["Data was compressed"] else [] }) := by
  have hbool : (!opts.overwrite && hasStructPDFData d) = false := by
    rcases hguard with h | h
    · rw [h]
      rfl
    · rw [h]
      simp
  have hsz : ¬((injectBytes data opts now).length > MAX_PAYLOAD_SIZE) := by omega
  unfold inject
  rw [validateJSON_true data, hurl]
  simp only [Bool.not_true, Bool.false_eq_true, if_false, hbool, if_neg hsz]

/-- Extraction from a document injected over a walk-clean base succeeds with
default options and returns the final envelope. -/
theorem extract_injectDoc (d : PDFDoc) (data : JSONValue) (opts : InjectionOptions)
    (now : String) (hclean : walkClean (docSlots d) = true) :
    extract (.valid (injectDoc d data opts now)) ⟨none, false⟩ =
      ⟨true, some (envelopeJson (injectFinalPayload data opts now)), [], []⟩ := by
  have hclean2 : walkClean (docSlots
      (if opts.overwrite then (removeFile d EMBEDDED_FILE_NAME).1 else d)) = true := by
    by_cases hov : opts.overwrite
    · rw [if_pos hov]
      exact walkClean_removeFile d _ hclean
    · rw [if_neg hov]
      exact hclean
  have hget : mapGet (getEmbeddedFiles (injectDoc d data opts now))
      ("(" ++ EMBEDDED_FILE_NAME ++ ")") = some (injectBytes data opts now) := by
    unfold injectDoc
    rw [getEmbeddedFiles_addMetadata, getEmbeddedFiles_addMetadata,
      getEmbeddedFiles_addMetadata]
    exact mapGet_embedFile _ _ _ hclean2
  have hhas : hasStructPDFData (injectDoc d data opts now) = true := by
    unfold hasStructPDFData
    rw [hget]
    rfl
  have hparse : extractParse (injectBytes data opts now) none =
      .ok (envelopeJson (injectFinalPayload data opts now)) := by
    unfold injectBytes
    by_cases hwc : injectWillCompress data opts now
    · rw [if_pos hwc]
      exact extractParse_gzip _ none (by simp)
    · rw [if_neg hwc]
      exact extractParse_plain _ none
  unfold extract
  simp only [hhas, Bool.not_true, Bool.false_eq_true, if_false, hget, hparse,
    Bool.false_and]

/-- After injection exactly one pair of the names array carries the reserved
name. -/
theorem countPairs_injectDoc (d : PDFDoc) (data : JSONValue) (opts : InjectionOptions)
    (now : String) :
    countPairsNamed ("(" ++ EMBEDDED_FILE_NAME ++ ")")
      (docSlots (injectDoc d data opts now)) = 1 := by
  unfold injectDoc
  rw [docSlots_addMetadata, docSlots_addMetadata, docSlots_addMetadata, docSlots_embedFile]
  rw [countPairsNamed_append _ _ _ (filterPairs_length_even _ _),
    countPairsNamed_filterPairs]
  simp [countPairsNamed, slotToString]

/-! ## The claims -/

/-- C1 (corrected).  Round-trip: for every plain-JSON value `v` and every
walk-clean document `d` with no pre-existing payload — in particular every
fresh document — injecting `v` (with a valid schema URL, under the size cap)
succeeds for every combination of the `compress` and `addIntegrity` options,
and extracting from the output document succeeds with `data.payload` equal to
`v`.  The walk-cleanliness hypothesis is necessary: the original universal
claim is refuted by the counterexample below, where a malformed pre-existing
pair makes the program's walk throw and abort before the appended entry. -/
theorem c1_round_trip (d : PDFDoc) (v : JSONValue) (opts : InjectionOptions) (now : String)
    (hurl : validateURL opts.schemaUrl = true)
    (hfresh : hasStructPDFData d = false)
    (hclean : walkClean (docSlots d) = true)
    (hsize : (injectBytes v opts now).length ≤ MAX_PAYLOAD_SIZE) :
    ∃ d' res, inject (.valid d) v opts now = .ok (d', res) ∧
      (extract (.valid d') ⟨none, false⟩).success = true ∧
      ((extract (.valid d') ⟨none, false⟩).data.bind
        (fun env => jProp env "payload")) = some v := by
  refine ⟨injectDoc d v opts now, _,
    inject_ok d v opts now hurl (Or.inr hfresh) hsize, ?_, ?_⟩
  · rw [extract_injectDoc d v opts now hclean]
  · rw [extract_injectDoc d v opts now hclean]
    show (some (envelopeJson (injectFinalPayload v opts now))).bind
      (fun env => jProp env "payload") = some v
    rw [Option.some_bind, envelopeJson_payload, injectFinalPayload_payload]

/-- C1, the original universal statement refuted: a fresh document whose
names array holds a `(string, string)` pair has no pre-existing payload, and
injection succeeds (appending the new pair after the junk pair), but the
typed filespec lookup throws at the junk pair and the walk aborts, so
extraction finds no payload. -/
theorem c1_round_trip_counterexample :
    hasStructPDFData ⟨none, none, some ⟨some ⟨some [.pstr "a", .pstr "b"]⟩⟩⟩ = false ∧
    (inject (.valid ⟨none, none, some ⟨some ⟨some [.pstr "a", .pstr "b"]⟩⟩⟩) .null
        ⟨false, false, false, "https://e/s", none⟩ "T").toOption.map
      (fun r => extract (.valid r.1) ⟨none, false⟩) =
      some ⟨false, none, ["No StructPDF data found in PDF"], []⟩ := by
  exact ⟨rfl, rfl⟩

/-- C2 (corrected).  Overwrite guard: on a document that already carries the
payload, a second injection without `overwrite` fails with the "already
contains" error; with `overwrite:true` on a walk-clean document it succeeds,
a subsequent extract returns the second payload, and exactly one pair of the
embedded-file names array carries the reserved name.  The walk-cleanliness
antecedent of the second part is necessary: the original claim is refuted by
the counterexample below, where a malformed pair after the reserved one makes
the re-extraction abort before the rewritten entry. -/
theorem c2_overwrite_guard (d : PDFDoc) (v : JSONValue) (opts : InjectionOptions)
    (now : String)
    (hurl : validateURL opts.schemaUrl = true)
    (hhas : hasStructPDFData d = true) :
    (opts.overwrite = false → inject (.valid d) v opts now =
      .error "Injection failed: PDF already contains StructPDF data. Use overwrite option to replace.") ∧
    (opts.overwrite = true → walkClean (docSlots d) = true →
      (injectBytes v opts now).length ≤ MAX_PAYLOAD_SIZE →
      ∃ d' res, inject (.valid d) v opts now = .ok (d', res) ∧
        (extract (.valid d') ⟨none, false⟩).success = true ∧
        ((extract (.valid d') ⟨none, false⟩).data.bind
          (fun env => jProp env "payload")) = some v ∧
        countPairsNamed ("(" ++ EMBEDDED_FILE_NAME ++ ")") (docSlots d') = 1) := by
  constructor
  · intro hov
    unfold inject
    simp [validateJSON_true v, hurl, hov, hhas]
  · intro hov hclean hsize
    refine ⟨injectDoc d v opts now, _,
      inject_ok d v opts now hurl (Or.inl hov) hsize, ?_, ?_, ?_⟩
    · rw [extract_injectDoc d v opts now hclean]
    · rw [extract_injectDoc d v opts now hclean]
      show (some (envelopeJson (injectFinalPayload v opts now))).bind
        (fun env => jProp env "payload") = some v
      rw [Option.some_bind, envelopeJson_payload, injectFinalPayload_payload]
    · exact countPairs_injectDoc d v opts now

/-- C2, the original statement refuted: a document carrying the reserved pair
followed by a malformed pair is payload-bearing under the program's own
detector (the walk collects the reserved entry before aborting), yet after an
`overwrite:true` re-injection the rewritten entry sits after the malformed
pair, the walk aborts before it, and extraction fails instead of returning
the second payload. -/
theorem c2_overwrite_guard_counterexample :
    hasStructPDFData ⟨none, none, some ⟨some ⟨some [.pstr "structpdf.json",
        .dict ⟨some ⟨some (.stream [49])⟩⟩, .pstr "x", .pstr "y"]⟩⟩⟩ = true ∧
    (inject (.valid ⟨none, none, some ⟨some ⟨some [.pstr "structpdf.json",
          .dict ⟨some ⟨some (.stream [49])⟩⟩, .pstr "x", .pstr "y"]⟩⟩⟩) (.num 2)
        ⟨true, false, false, "https://e/s", none⟩ "T").toOption.map
      (fun r => extract (.valid r.1) ⟨none, false⟩) =
      some ⟨false, none, ["No StructPDF data found in PDF"], []⟩ := by
  exact ⟨rfl, rfl⟩

/-- C4.  Layered decompression tolerance: when the stored entry holds the
envelope bytes gzipped twice in succession, extraction with default options
recovers the parsed envelope by repeated header-driven decompression. -/
theorem c4_layered (d : PDFDoc) (v : JSONValue)
    (hstored : mapGet (getEmbeddedFiles d) ("(" ++ EMBEDDED_FILE_NAME ++ ")") =
      some (pakoGzip (pakoGzip (utf8Encode (jsonStringifyPretty v))))) :
    extract (.valid d) ⟨none, false⟩ = ⟨true, some v, [], []⟩ := by
  have hhas : hasStructPDFData d = true := by
    unfold hasStructPDFData
    rw [hstored]
    rfl
  unfold extract
  simp only [hhas, Bool.not_true, Bool.false_eq_true, if_false, hstored,
    extractParse_gzip2 v none (by simp), Bool.false_and]

/-- C9.  The claim says the walk skips any pair whose chain cannot be
resolved and still returns the entries of all later resolvable pairs.  That
holds only for failures at the untyped `F` lookup (last conjunct); a filespec
slot that is not a dictionary, or a filespec without an `EF` dictionary,
makes a typed lookup throw and the outer catch abort the walk, dropping a
later well-formed `structpdf.json` pair — the document is then not detected
at all, contradicting the claim. -/
theorem c9_walk_aborts :
    collectPairs [.pstr "junk", .dict ⟨none⟩, .pstr "structpdf.json",
        .dict ⟨some ⟨some (.stream [49])⟩⟩] = [] ∧
    hasStructPDFData ⟨none, none, some ⟨some ⟨some [.pstr "junk", .dict ⟨none⟩,
        .pstr "structpdf.json", .dict ⟨some ⟨some (.stream [49])⟩⟩]⟩⟩⟩ = false ∧
    (extract (.valid ⟨none, none, some ⟨some ⟨some [.pstr "junk", .dict ⟨none⟩,
        .pstr "structpdf.json", .dict ⟨some ⟨some (.stream [49])⟩⟩]⟩⟩⟩)
      ⟨none, false⟩).success = false ∧
    collectPairs [.pstr "junk", .dict ⟨some ⟨none⟩⟩, .pstr "structpdf.json",
        .dict ⟨some ⟨some (.stream [49])⟩⟩] = [("(structpdf.json)", [49])] := by
  exact ⟨rfl, rfl, rfl, rfl⟩

/-- C10.  Detection depends only on the name-tree entry: replacing the
keyword (and creator) fields changes neither `hasStructPDFData` nor the whole
extraction result, and the quick probe returns `false` (instead of throwing)
on an unloadable input. -/
theorem c10_detection_independent (d : PDFDoc) (c k : Option String)
    (opts : ExtractionOptions) (msg : String) :
    hasStructPDFData ⟨c, k, d.names⟩ = hasStructPDFData d ∧
    extract (.valid ⟨c, k, d.names⟩) opts = extract (.valid d) opts ∧
    hasStructPDFDataProbe (.invalid msg) = false :=
  ⟨rfl, rfl, rfl⟩

theorem verifyIntegrityStep_shape (env iv : JSONValue) :
    ((verifyIntegrityStep env iv).success = true ∧ (verifyIntegrityStep env iv).errors = []) ∨
    ((verifyIntegrityStep env iv).success = false ∧
      (verifyIntegrityStep env iv).errors ≠ []) := by
  cases halg : jProp iv "algorithm" with
  | none =>
    right
    constructor <;> simp [verifyIntegrityStep, halg]
  | some av =>
    cases av with
    | str a =>
      by_cases hc : a ∈ SUPPORTED_HASH_ALGORITHMS
      · cases hpl : jProp env "payload" with
        | none =>
          right
          constructor <;> simp [verifyIntegrityStep, halg, hc, hpl]
        | some pv =>
          cases hhv : jProp iv "hash" with
          | none =>
            right
            constructor <;> simp [verifyIntegrityStep, halg, hc, hpl, hhv]
          | some hv =>
            cases hv with
            | str h =>
              by_cases he : hashHex a (jsonStringifyCompact pv) = h
              · left
                constructor <;> simp [verifyIntegrityStep, halg, hc, hpl, hhv, he]
              · right
                constructor <;> simp [verifyIntegrityStep, halg, hc, hpl, hhv, he]
            | null =>
              right
              constructor <;> simp [verifyIntegrityStep, halg, hc, hpl, hhv]
            | bool b =>
              right
              constructor <;> simp [verifyIntegrityStep, halg, hc, hpl, hhv]
            | num n =>
              right
              constructor <;> simp [verifyIntegrityStep, halg, hc, hpl, hhv]
            | arr xs =>
              right
              constructor <;> simp [verifyIntegrityStep, halg, hc, hpl, hhv]
            | obj kvs =>
              right
              constructor <;> simp [verifyIntegrityStep, halg, hc, hpl, hhv]
      · right
        constructor <;> simp [verifyIntegrityStep, halg, hc]
    | null =>
      right
      constructor <;> simp [verifyIntegrityStep, halg]
    | bool b =>
      right
      constructor <;> simp [verifyIntegrityStep, halg]
    | num n =>
      right
      constructor <;> simp [verifyIntegrityStep, halg]
    | arr xs =>
      right
      constructor <;> simp [verifyIntegrityStep, halg]
    | obj kvs =>
      right
      constructor <;> simp [verifyIntegrityStep, halg]

/-- C5.  Extraction is a total function of its inputs: for every document
input and option combination it returns a result record, and every
non-success result carries a non-empty human-readable error list. -/
theorem c5_never_throws (input : PDFInput) (opts : ExtractionOptions) :
    ((extract input opts).success = true ∧ (extract input opts).errors = []) ∨
    ((extract input opts).success = false ∧ (extract input opts).errors ≠ []) := by
  cases input with
  | invalid msg =>
    right
    exact ⟨rfl, by simp [extract]⟩
  | valid d =>
    cases hh : hasStructPDFData d with
    | false =>
      right
      refine ⟨?_, ?_⟩ <;> simp [extract, hh]
    | true =>
      cases hm : mapGet (getEmbeddedFiles d) ("(" ++ EMBEDDED_FILE_NAME ++ ")") with
      | none =>
        right
        refine ⟨?_, ?_⟩ <;> simp [extract, hh, hm]
      | some bytes =>
        cases hp : extractParse bytes opts.decompress with
        | error e =>
          right
          refine ⟨?_, ?_⟩ <;> simp [extract, hh, hm, hp]
        | ok env =>
          by_cases hgate : (opts.verifyIntegrity &&
              (match integrityGateValue env with
               | some iv => jTruthy iv
               | none => false)) = true
          · cases hiv : integrityGateValue env with
            | none =>
              rw [hiv] at hgate
              simp at hgate
            | some iv =>
              have hgate' : (opts.verifyIntegrity && jTruthy iv) = true := by
                rw [hiv] at hgate
                exact hgate
              have hres : extract (.valid d) opts = verifyIntegrityStep env iv := by
                unfold extract
                simp only [hh, Bool.not_true, Bool.false_eq_true, if_false, hm, hp, hiv]
                rw [if_pos hgate']
              rw [hres]
              exact verifyIntegrityStep_shape env iv
          · left
            have hres : extract (.valid d) opts = ⟨true, some env, [], []⟩ := by
              unfold extract
              simp only [hh, Bool.not_true, Bool.false_eq_true, if_false, hm, hp]
              rw [if_neg hgate]
            rw [hres]
            exact ⟨rfl, rfl⟩

/-- C6.  Integrity failures still populate `data`: with `verifyIntegrity` on
an envelope carrying an integrity block, an unsupported algorithm is rejected
with the "unsupported algorithm" condition independent of the stored hash, a
hash mismatch is rejected with the "integrity check failed" condition, and
both return the decoded envelope as `data`. -/
theorem c6_integrity_yields_data (d : PDFDoc) (p : StructPDFPayload) (i : IntegrityInfo)
    (hstored : mapGet (getEmbeddedFiles d) ("(" ++ EMBEDDED_FILE_NAME ++ ")") =
      some (utf8Encode (jsonStringifyPretty (envelopeJson p))))
    (hint : p.metadata.integrity = some i) :
    (i.algorithm ∉ SUPPORTED_HASH_ALGORITHMS →
      extract (.valid d) ⟨none, true⟩ =
        ⟨false, some (envelopeJson p),
          ["Unsupported hash algorithm: " ++ i.algorithm ++
            ". Supported: md5, sha1, sha256, sha384, sha512"], []⟩) ∧
    (i.algorithm ∈ SUPPORTED_HASH_ALGORITHMS →
      i.hash ≠ hashHex i.algorithm (jsonStringifyCompact p.payload) →
      extract (.valid d) ⟨none, true⟩ =
        ⟨false, some (envelopeJson p),
          ["Integrity check failed: data may have been modified"], []⟩) := by
  have hhas : hasStructPDFData d = true := by
    unfold hasStructPDFData
    rw [hstored]
    rfl
  have hiv : integrityGateValue (envelopeJson p) =
      some (.obj [("algorithm", .str i.algorithm), ("hash", .str i.hash)]) := by
    rw [integrityGateValue_envelope, hint]
  have halg : jProp (.obj [("algorithm", .str i.algorithm), ("hash", .str i.hash)])
      "algorithm" = some (.str i.algorithm) := by
    simp [jProp, objGet]
  have hhash : jProp (.obj [("algorithm", .str i.algorithm), ("hash", .str i.hash)])
      "hash" = some (.str i.hash) := by
    simp [jProp, objGet]
  have hbase : extract (.valid d) ⟨none, true⟩ =
      verifyIntegrityStep (envelopeJson p)
        (.obj [("algorithm", .str i.algorithm), ("hash", .str i.hash)]) := by
    unfold extract
    simp only [hhas, Bool.not_true, Bool.false_eq_true, if_false, hstored,
      extractParse_plain (envelopeJson p) none, hiv, jTruthy, Bool.and_self, if_true,
      Bool.true_and]
  constructor
  · intro hnot
    have hcont : SUPPORTED_HASH_ALGORITHMS.contains i.algorithm = false := by
      simpa using hnot
    rw [hbase]
    unfold verifyIntegrityStep
    simp only [halg, hcont, Bool.false_eq_true, if_false, jsShow, jsStr]
  · intro hmem hne
    have hcont : SUPPORTED_HASH_ALGORITHMS.contains i.algorithm = true := by
      simpa using hmem
    rw [hbase]
    unfold verifyIntegrityStep
    simp only [halg, hcont, if_true, envelopeJson_payload, hhash]
    rw [if_neg]
    simp only [decide_eq_true_eq]
    exact fun h => hne h.symm

/-- C3.  Compression size boundary: with `compress:true`, a pre-serialized
envelope of exactly 1024 bytes is stored uncompressed with `compressed:false`;
one byte more flips `metadata.compressed` to `true`, re-serializes, and stores
the gzipped re-serialization, warning that data was compressed.  The stored
bytes are observed through the program's own walk, so the base document is
required walk-clean (as any fresh document is); the compression decision
itself does not depend on it. -/
theorem c3_compression_boundary (d : PDFDoc) (v : JSONValue) (opts : InjectionOptions)
    (now : String)
    (hurl : validateURL opts.schemaUrl = true)
    (hfresh : hasStructPDFData d = false)
    (hclean : walkClean (docSlots d) = true)
    (hcomp : opts.compress = true)
    (hsize : (injectBytes v opts now).length ≤ MAX_PAYLOAD_SIZE) :
    ((injectTempBytes v opts now).length = 1024 →
      ∃ d' res, inject (.valid d) v opts now = .ok (d', res) ∧
        mapGet (getEmbeddedFiles d') ("(" ++ EMBEDDED_FILE_NAME ++ ")") =
          some (utf8Encode (jsonStringifyPretty (envelopeJson (preparePayload v opts now)))) ∧
        (preparePayload v opts now).metadata.compressed = false ∧
        res.metadata.compressed = false ∧ res.warnings = []) ∧
    ((injectTempBytes v opts now).length = 1025 →
      ∃ d' res, inject (.valid d) v opts now = .ok (d', res) ∧
        mapGet (getEmbeddedFiles d') ("(" ++ EMBEDDED_FILE_NAME ++ ")") =
          some (pakoGzip (utf8Encode (jsonStringifyPretty (envelopeJson
            { preparePayload v opts now with
              metadata :=
                { (preparePayload v opts now).metadata with compressed := true } })))) ∧
        res.metadata.compressed = true ∧ res.warnings = ["Data was compressed"]) := by
  have hclean2 : walkClean (docSlots
      (if opts.overwrite then (removeFile d EMBEDDED_FILE_NAME).1 else d)) = true := by
    by_cases hov : opts.overwrite
    · rw [if_pos hov]
      exact walkClean_removeFile d _ hclean
    · rw [if_neg hov]
      exact hclean
  constructor
  · intro hlen
    have hwc : injectWillCompress v opts now = false := by
      unfold injectWillCompress
      rw [hcomp, hlen]
      rfl
    have hfin : injectFinalPayload v opts now = preparePayload v opts now := by
      simp only [injectFinalPayload, hwc, Bool.false_eq_true, if_false]
    have hbytes : injectBytes v opts now =
        utf8Encode (jsonStringifyPretty (envelopeJson (preparePayload v opts now))) := by
      simp only [injectBytes, hwc, Bool.false_eq_true, if_false, hfin]
    have hmap : mapGet (getEmbeddedFiles (injectDoc d v opts now))
        ("(" ++ EMBEDDED_FILE_NAME ++ ")") =
        some (utf8Encode (jsonStringifyPretty (envelopeJson (preparePayload v opts now)))) := by
      simp only [injectDoc]
      rw [getEmbeddedFiles_addMetadata, getEmbeddedFiles_addMetadata,
        getEmbeddedFiles_addMetadata, mapGet_embedFile _ _ _ hclean2, hbytes]
    have hprep : (preparePayload v opts now).metadata.compressed = false := rfl
    have hres1 : (injectFinalPayload v opts now).metadata.compressed = false := by
      rw [hfin]
      exact hprep
    have hwarn : (if injectWillCompress v opts now then ["Data was compressed"] else []) =
        ([] : List String) := by
      rw [hwc]
      rfl
    exact ⟨injectDoc d v opts now, _, inject_ok d v opts now hurl (Or.inr hfresh) hsize,
      hmap, hprep, hres1, hwarn⟩
  · intro hlen
    have hwc : injectWillCompress v opts now = true := by
      unfold injectWillCompress
      rw [hcomp, hlen]
      rfl
    have hfin : injectFinalPayload v opts now =
        { preparePayload v opts now with
          metadata := { (preparePayload v opts now).metadata with compressed := true } } := by
      simp only [injectFinalPayload, hwc, if_true]
    have hbytes : injectBytes v opts now =
        pakoGzip (utf8Encode (jsonStringifyPretty (envelopeJson
          { preparePayload v opts now with
            metadata :=
              { (preparePayload v opts now).metadata with compressed := true } }))) := by
      simp only [injectBytes, hwc, if_true, hfin]
      rfl
    have hmap : mapGet (getEmbeddedFiles (injectDoc d v opts now))
        ("(" ++ EMBEDDED_FILE_NAME ++ ")") =
        some (pakoGzip (utf8Encode (jsonStringifyPretty (envelopeJson
          { preparePayload v opts now with
            metadata :=
              { (preparePayload v opts now).metadata with compressed := true } })))) := by
      simp only [injectDoc]
      rw [getEmbeddedFiles_addMetadata, getEmbeddedFiles_addMetadata,
        getEmbeddedFiles_addMetadata, mapGet_embedFile _ _ _ hclean2, hbytes]
    have hres1 : (injectFinalPayload v opts now).metadata.compressed = true := by
      rw [hfin]
    have hwarn : (if injectWillCompress v opts now then ["Data was compressed"] else []) =
        ["Data was compressed"] := by
      rw [hwc]
      rfl
    exact ⟨injectDoc d v opts now, _, inject_ok d v opts now hurl (Or.inr hfresh) hsize,
      hmap, hres1, hwarn⟩

/-- C7.  The spec expects the keyword signal tokens `StructPDF:true` and
`StructPDF-Domain:<domain>` after a successful injection, but `inject` never
calls `addStructPDFMetadata`: on a fresh document the injection succeeds with
domain `RESUME`, yet the signal-token detector reads `false` and no keyword
token starts with `StructPDF-Domain:`. -/
theorem c7_signal_tokens_missing :
    (inject (.valid emptyDoc) .null ⟨false, false, false, "https://e/s", some "RESUME"⟩
        "2025-01-01T00:00:00.000Z").toOption.map
      (fun r => (hasStructPDFMetadata r.1,
        (match r.1.keywords with
         | some ks => (jsSplitSpace ks).any (fun t => jsStartsWith t "StructPDF-Domain:")
         | none => false))) = some (false, false) := by
  rfl

/-- C8.  The spec expects pre-existing keyword tokens to be preserved, but
`addMetadata` spreads the existing keyword STRING character-by-character: on a
document with keywords `alpha beta`, after adding one metadata key the token
`alpha` is gone (its characters survive only as isolated one-letter tokens),
and the same happens through `addStructPDFMetadata`. -/
theorem c8_keyword_shatter :
    "alpha" ∈ jsSplitSpace "alpha beta" ∧
    (addMetadata ⟨some "Word", some "alpha beta", none⟩ "HasStructPDF" "true").keywords =
      some "a l p h a   b e t a HasStructPDF:true" ∧
    "alpha" ∉ jsSplitSpace
      (((addMetadata ⟨some "Word", some "alpha beta", none⟩ "HasStructPDF"
        "true").keywords).getD "") ∧
    "HasStructPDF:true" ∈ jsSplitSpace
      (((addMetadata ⟨some "Word", some "alpha beta", none⟩ "HasStructPDF"
        "true").keywords).getD "") ∧
    "alpha" ∉ jsSplitSpace
      (((addStructPDFMetadata ⟨some "Word", some "alpha beta", none⟩ "RESUME"
        none none).keywords).getD "") := by
  refine ⟨by decide, rfl, by decide, by decide, by decide⟩

/-! ## Witnesses -/

/-- Witness for C1 at a concrete value, document and option set. -/
theorem c1_round_trip_witness :
    ∃ d' res, inject (.valid emptyDoc) .null ⟨false, true, true, "https://e/s", none⟩ "T" =
        .ok (d', res) ∧
      (extract (.valid d') ⟨none, false⟩).success = true ∧
      ((extract (.valid d') ⟨none, false⟩).data.bind
        (fun env => jProp env "payload")) = some .null :=
  c1_round_trip emptyDoc .null ⟨false, true, true, "https://e/s", none⟩ "T"
    (by decide) rfl rfl (by decide)

/-- Witness for C2 on a document already carrying an entry under the reserved
name. -/
theorem c2_overwrite_guard_witness :
    ((false : Bool) = false →
      inject (.valid ⟨none, none, some ⟨some ⟨some [.pstr "structpdf.json",
          .dict ⟨some ⟨some (.stream [49])⟩⟩]⟩⟩⟩) (.num 2)
        ⟨false, false, false, "https://e/s", none⟩ "T" =
      .error "Injection failed: PDF already contains StructPDF data. Use overwrite option to replace.") ∧
    ((false : Bool) = true →
      walkClean (docSlots (⟨none, none, some ⟨some ⟨some [.pstr "structpdf.json",
          .dict ⟨some ⟨some (.stream [49])⟩⟩]⟩⟩⟩ : PDFDoc)) = true →
      (injectBytes (.num 2) ⟨false, false, false, "https://e/s", none⟩ "T").length ≤
        MAX_PAYLOAD_SIZE →
      ∃ d' res, inject (.valid ⟨none, none, some ⟨some ⟨some [.pstr "structpdf.json",
          .dict ⟨some ⟨some (.stream [49])⟩⟩]⟩⟩⟩) (.num 2)
          ⟨false, false, false, "https://e/s", none⟩ "T" = .ok (d', res) ∧
        (extract (.valid d') ⟨none, false⟩).success = true ∧
        ((extract (.valid d') ⟨none, false⟩).data.bind
          (fun env => jProp env "payload")) = some (.num 2) ∧
        countPairsNamed ("(" ++ EMBEDDED_FILE_NAME ++ ")") (docSlots d') = 1) :=
  c2_overwrite_guard ⟨none, none, some ⟨some ⟨some [.pstr "structpdf.json",
    .dict ⟨some ⟨some (.stream [49])⟩⟩]⟩⟩⟩ (.num 2)
    ⟨false, false, false, "https://e/s", none⟩ "T" (by decide) rfl

/-- Witness for C4 on a concrete document storing a twice-gzipped envelope. -/
theorem c4_layered_witness :
    extract (.valid ⟨none, none, some ⟨some ⟨some [.pstr "structpdf.json",
        .dict ⟨some ⟨some (.stream (pakoGzip (pakoGzip
          (utf8Encode (jsonStringifyPretty .null)))))⟩⟩]⟩⟩⟩) ⟨none, false⟩ =
      ⟨true, some .null, [], []⟩ :=
  c4_layered _ .null rfl

/-- Witness for C6 at that document. -/
theorem c6_integrity_witness :
    (("md4" : String) ∉ SUPPORTED_HASH_ALGORITHMS →
      extract (.valid c6doc) ⟨none, true⟩ =
        ⟨false, some (envelopeJson c6envelope),
          ["Unsupported hash algorithm: " ++ "md4" ++
            ". Supported: md5, sha1, sha256, sha384, sha512"], []⟩) ∧
    (("md4" : String) ∈ SUPPORTED_HASH_ALGORITHMS →
      ("beef" : String) ≠ hashHex "md4" (jsonStringifyCompact .null) →
      extract (.valid c6doc) ⟨none, true⟩ =
        ⟨false, some (envelopeJson c6envelope),
          ["Integrity check failed: data may have been modified"], []⟩) :=
  c6_integrity_yields_data c6doc c6envelope ⟨"md4", "beef"⟩ rfl rfl


/-- Witness for C3: two payloads whose envelopes serialize to exactly 1024 and
1025 bytes, exercising both sides of the threshold. -/
theorem c3_compression_boundary_witness :
    (injectTempBytes (.str (String.mk (List.replicate 824 'a')))
      ⟨false, true, false, "https://e/s", none⟩ "T").length = 1024 ∧
    (injectTempBytes (.str (String.mk (List.replicate 825 'a')))
      ⟨false, true, false, "https://e/s", none⟩ "T").length = 1025 ∧
    (∃ d' res, inject (.valid emptyDoc) (.str (String.mk (List.replicate 824 'a')))
        ⟨false, true, false, "https://e/s", none⟩ "T" = .ok (d', res) ∧
      mapGet (getEmbeddedFiles d') ("(" ++ EMBEDDED_FILE_NAME ++ ")") =
        some (utf8Encode (jsonStringifyPretty (envelopeJson
          (preparePayload (.str (String.mk (List.replicate 824 'a')))
            ⟨false, true, false, "https://e/s", none⟩ "T")))) ∧
      (preparePayload (.str (String.mk (List.replicate 824 'a')))
        ⟨false, true, false, "https://e/s", none⟩ "T").metadata.compressed = false ∧
      res.metadata.compressed = false ∧ res.warnings = []) ∧
    (∃ d' res, inject (.valid emptyDoc) (.str (String.mk (List.replicate 825 'a')))
        ⟨false, true, false, "https://e/s", none⟩ "T" = .ok (d', res) ∧
      mapGet (getEmbeddedFiles d') ("(" ++ EMBEDDED_FILE_NAME ++ ")") =
        some (pakoGzip (utf8Encode (jsonStringifyPretty (envelopeJson
          { preparePayload (.str (String.mk (List.replicate 825 'a')))
              ⟨false, true, false, "https://e/s", none⟩ "T" with
            metadata :=
              { (preparePayload (.str (String.mk (List.replicate 825 'a')))
                  ⟨false, true, false, "https://e/s", none⟩ "T").metadata with
                compressed := true } })))) ∧
      res.metadata.compressed = true ∧ res.warnings = ["Data was compressed"]) :=
  ⟨by decide, by decide,
    (c3_compression_boundary emptyDoc (.str (String.mk (List.replicate 824 'a')))
      ⟨false, true, false, "https://e/s", none⟩ "T" (by decide) rfl rfl rfl
      (by decide)).1 (by decide),
    (c3_compression_boundary emptyDoc (.str (String.mk (List.replicate 825 'a')))
      ⟨false, true, false, "https://e/s", none⟩ "T" (by decide) rfl rfl rfl
      (by decide)).2 (by decide)⟩
